import Mathlib

/-!
Verification of the incremental nonlinear least-squares core (ISAM2) of this
repository against its specification.

The repository ships only the unit tests (src/tests/testGaussianISAM2.cpp) and
an example driver; the implementation of the core (gtsam/nonlinear/ISAM2,
the Gaussian elimination engine, the Bayes tree and the ordering/permutation
layer) is not part of the source tree.  Following the specification, the
missing core is modelled here as a shallow embedding over exact rationals:

* variables are natural-number keys; a variable value is an opaque vector of
  fixed local dimension (a list of rationals), and retraction is vector
  addition, as the specification prescribes for the core's view of values;
* linear factors are kept in information (Hessian) form; eliminating one
  variable is the square-root-free variant of the specification's Cholesky
  path: the conditional stores the information blocks (H11, H12, g1) in place
  of their triangular square root, which changes no computed delta and keeps
  every quantity rational;
* sequential elimination consumes, at each variable of the ordering, all
  factors currently touching that variable (specification 4.3), producing a
  Gaussian conditional and a residual separator factor;
* the incremental update (specification 4.5) is modelled with the
  relinearization policy "never", which is the configuration driving every
  test in src/tests/testGaussianISAM2.cpp (relinearize threshold 0, policy
  disabled), and with exact back-substitution (wildfire threshold 0); the
  1e-4 numerical tolerance of the tests exists only to absorb floating point
  and partial back-substitution, both of which the rational model makes exact.
-/

set_option maxRecDepth 10000
set_option maxHeartbeats 1000000

/-- Componentwise sum of two vectors of equal length (the externally supplied
"apply a local update vector" operation of the specification's data model). -/
def vecAdd (a b : List ℚ) : List ℚ := List.zipWith (· + ·) a b

/-- Sum of a list of rationals written as an abbreviation used throughout. -/
def qsum (l : List ℚ) : ℚ := l.sum

/-- The elements of a finite set of keys listed in ascending order (by
insertion sort, so that the listing computes by structural recursion). -/
def finSort (s : Finset ℕ) : List ℕ :=
  Quotient.liftOn s.val (fun l => l.insertionSort (· ≤ ·)) (fun a b hab =>
    List.eq_of_perm_of_sorted
      ((List.perm_insertionSort _ a).trans (hab.trans (List.perm_insertionSort _ b).symm))
      (List.sorted_insertionSort _ a) (List.sorted_insertionSort _ b))

/-- Modelled from the spec: a linear factor of the missing linear algebra
layer, as produced by `linearize` and consumed by the elimination engine, in
information (Hessian) form: the set of variable keys it touches, its
information matrix indexed by coordinates (key, component), and its
information vector.  Entries outside the coordinates of `keys` are junk and
never observed. -/
structure HFactor where
  keys : Finset ℕ
  Hm : ℕ × ℕ → ℕ × ℕ → ℚ
  gv : ℕ × ℕ → ℚ

instance : Zero HFactor := ⟨⟨∅, fun _ _ => 0, fun _ => 0⟩⟩

instance : Add HFactor :=
  ⟨fun a b => ⟨a.keys ∪ b.keys, fun x y => a.Hm x y + b.Hm x y, fun x => a.gv x + b.gv x⟩⟩

/-- Modelled from the spec: combining linear factors sums their information;
the key sets unite.  This addition is the "combine all factors touching a
variable" step of the elimination engine. -/
instance : AddCommMonoid HFactor where
  add_assoc a b c := by
    show HFactor.mk _ _ _ = HFactor.mk _ _ _
    simp only [HFactor.mk.injEq]
    exact ⟨Finset.union_assoc _ _ _, funext fun x => funext fun y => add_assoc _ _ _,
      funext fun x => add_assoc _ _ _⟩
  zero_add a := by
    cases a with
    | mk k h g =>
      show HFactor.mk _ _ _ = HFactor.mk _ _ _
      simp only [HFactor.mk.injEq]
      exact ⟨Finset.empty_union _, funext fun x => funext fun y => zero_add _,
        funext fun x => zero_add _⟩
  add_zero a := by
    cases a with
    | mk k h g =>
      show HFactor.mk _ _ _ = HFactor.mk _ _ _
      simp only [HFactor.mk.injEq]
      exact ⟨Finset.union_empty _, funext fun x => funext fun y => add_zero _,
        funext fun x => add_zero _⟩
  add_comm a b := by
    show HFactor.mk _ _ _ = HFactor.mk _ _ _
    simp only [HFactor.mk.injEq]
    exact ⟨Finset.union_comm _ _, funext fun x => funext fun y => add_comm _ _,
      funext fun x => add_comm _ _⟩
  nsmul := nsmulRec

/-- Modelled from the spec: a Gaussian conditional produced by eliminating one
variable (the frontal) from the combined information factor: `sep` lists the
separator variables with their local dimensions in ascending key order, `Rm`
is the frontal information block, `Rinv` its inverse, `Sm` the cross block
against the separator, and `dv` the right-hand side.  Blocks are masked to
zero outside their finite extent, mirroring matrices of finite size. -/
structure GCond where
  frontal : ℕ
  dimF : ℕ
  sep : List (ℕ × ℕ)
  Rm : ℕ → ℕ → ℚ
  Rinv : ℕ → ℕ → ℚ
  Sm : ℕ → ℕ × ℕ → ℚ
  dv : ℕ → ℚ

/-- Frontal and separator variables of a conditional, with local dimensions. -/
def varsWithDims (c : GCond) : List (ℕ × ℕ) := (c.frontal, c.dimF) :: c.sep

/-- Separator keys of a conditional as a set. -/
def condSepSet (c : GCond) : Finset ℕ := (c.sep.map Prod.fst).toFinset

/-- Row `r`, coordinate `co` of the conditional viewed as a Jacobian-style
block row [R S | d], as the tests view a conditional when building a
`JacobianFactor` from it. -/
def jacRow (c : GCond) (r : ℕ) (co : ℕ × ℕ) : ℚ :=
  if co.1 = c.frontal then c.Rm r co.2 else c.Sm r co

/-- Modelled from the spec: a Jacobian-form linear factor (the
`JacobianFactor` of the missing linear layer): row count, variables with
local dimensions, coefficient matrix and right-hand side. -/
structure JFactor where
  rows : ℕ
  vars : List (ℕ × ℕ)
  Am : ℕ → ℕ × ℕ → ℚ
  bv : ℕ → ℚ

/-- The conditional reinterpreted as a Jacobian factor, exactly as the tests
build `JacobianFactor(*clique->conditional())`. -/
def jacobianOf (c : GCond) : JFactor :=
  ⟨c.dimF, varsWithDims c, jacRow c, c.dv⟩

/-- Product of row `r` of factor `f` with the assignment `x`, summed over the
coordinates of the factor's variables. -/
def rowDot (f : JFactor) (r : ℕ) (x : ℕ × ℕ → ℚ) : ℚ :=
  qsum (f.vars.map (fun vd => qsum ((List.range vd.2).map (fun i =>
    f.Am r (vd.1, i) * x (vd.1, i)))))

/-- Modelled from the spec: the gradient of the quadratic error of a Jacobian
factor graph at the assignment `x`, coordinatewise: sum over factors and rows
of A^T (A x - b). -/
def gradientF (fg : List JFactor) (x : ℕ × ℕ → ℚ) : ℕ × ℕ → ℚ :=
  fun co => qsum (fg.map (fun f => qsum ((List.range f.rows).map (fun r =>
    f.Am r co * (rowDot f r x - f.bv r)))))

/-- Modelled from the spec: the specialized gradient-at-zero of a Jacobian
factor graph, coordinatewise: sum over factors and rows of -(A^T b). -/
def gradientAtZeroF (fg : List JFactor) : ℕ × ℕ → ℚ :=
  fun co => qsum (fg.map (fun f => qsum ((List.range f.rows).map (fun r =>
    -(f.Am r co * f.bv r)))))

/-- Modelled from the spec: the gradient contribution a clique caches when its
conditional is (re)built: the concatenation, over the conditional's variables
in order, of the blocks of -[R S]^T d (specification 4.6). -/
def gradContribOf (c : GCond) : List ℚ :=
  ((varsWithDims c).map (fun vd => (List.range vd.2).map (fun i =>
    -(qsum ((List.range c.dimF).map (fun r => jacRow c r (vd.1, i) * c.dv r)))))).flatten

/-- Value at coordinate `co` of a concatenated per-variable vector `l` whose
blocks follow the variable/dimension layout `vds`; zero outside the layout.
This is how a clique's cached `gradientContribution` is scattered into the
global gradient vector. -/
def segLookup : List (ℕ × ℕ) → List ℚ → ℕ × ℕ → ℚ
  | [], _, _ => 0
  | (w, d) :: rest, l, co =>
    if co.1 = w then (if co.2 < d then l.getD co.2 0 else 0)
    else segLookup rest (l.drop d) co

/-- Sum of the local dimensions of a variable/dimension layout. -/
def dimTotal (vds : List (ℕ × ℕ)) : ℕ := (vds.map Prod.snd).sum

/-- Offset of the `t`-th variable's block inside a concatenated vector. -/
def segOffset (vds : List (ℕ × ℕ)) (t : ℕ) : ℕ := dimTotal (vds.take t)

/- ------------------------------------------------------------------ -/
/- Elimination engine and incremental update model (claims C1-C3,      -/
/- C5-C7, C9-C10).                                                     -/
/- ------------------------------------------------------------------ -/

/-- One step of Gauss-Jordan reduction at column `c` of an augmented matrix:
find a pivot row at or below position `c` (failing when the column is zero
there, the rank-deficient case), normalize it, move it to position `c`, and
eliminate the column from every other row. -/
def pivotAndReduce (c : ℕ) (rows : List (List ℚ)) : Option (List (List ℚ)) :=
  let pre := rows.take c
  let rest := rows.drop c
  match rest.findIdx? (fun row => row.getD c 0 != 0) with
  | none => none
  | some i =>
    let piv := rest.getD i []
    let rest2 := rest.eraseIdx i
    let p := piv.getD c 0
    let pivN := piv.map (· / p)
    let reduce := fun (row : List ℚ) =>
      List.zipWith (fun a b => a - row.getD c 0 * b) row pivN
    some (pre.map reduce ++ pivN :: rest2.map reduce)

/-- Gauss-Jordan main loop over the columns. -/
def gaussJordan : ℕ → ℕ → List (List ℚ) → Option (List (List ℚ))
  | 0, _, rows => some rows
  | fuel + 1, c, rows =>
    match pivotAndReduce c rows with
    | none => none
    | some rows2 => gaussJordan fuel (c + 1) rows2

/-- Matrix inverse over the rationals by Gauss-Jordan elimination on the
matrix augmented with the identity; `none` exactly when the reduction hits a
zero pivot column, the model's IndeterminateSystemError of the elimination
engine (specification 4.3: rank deficiency on the Cholesky path). -/
def matInvQ (m : List (List ℚ)) : Option (List (List ℚ)) :=
  let n := m.length
  let idn := (List.range n).map (fun i => (List.range n).map
    (fun j => if i = j then (1 : ℚ) else 0))
  (gaussJordan n 0 (List.zipWith (· ++ ·) m idn)).map (fun rows =>
    rows.map (fun r => r.drop n))

/-- Modelled from the spec: a Bayes-tree clique of the missing incremental
core, restricted to one frontal variable per clique: its Gaussian
conditional, its cached separator factor (the marginal produced when the
clique was eliminated, kept so that detached subtrees need not be
re-eliminated), and the cached gradient contribution recomputed from the
conditional whenever the conditional is rebuilt (specification 4.6). -/
structure CliqueA where
  cond : GCond
  marg : HFactor
  gradContribution : List ℚ

/-- Modelled from the spec: eliminating one variable `k` from the combined
information factor of everything touching it (specification 4.3, the
square-root-free Cholesky path): fails with the IndeterminateSystemError when
the frontal information block is singular; otherwise produces the clique
holding the conditional (H11, H12, g1 masked to their finite extent), the
residual separator factor by the Schur complement, and the cached gradient
contribution of the new conditional. -/
def elimKey (dims : ℕ → ℕ) (k : ℕ) (comb : HFactor) : Option CliqueA :=
  let d := dims k
  match matInvQ ((List.range d).map (fun i => (List.range d).map
      (fun j => comb.Hm (k, i) (k, j)))) with
  | none => none
  | some inv =>
    let rinv : ℕ → ℕ → ℚ := fun i j => (inv.getD i []).getD j 0
    let sepKeys := finSort (comb.keys.erase k)
    let cond : GCond :=
      { frontal := k, dimF := d,
        sep := sepKeys.map (fun v => (v, dims v)),
        Rm := fun i j => if i < d ∧ j < d then comb.Hm (k, i) (k, j) else 0,
        Rinv := rinv,
        Sm := fun r co =>
          if r < d ∧ co.1 ∈ comb.keys.erase k ∧ co.2 < dims co.1
          then comb.Hm (k, r) co else 0,
        dv := fun i => if i < d then comb.gv (k, i) else 0 }
    let marg : HFactor :=
      { keys := comb.keys.erase k,
        Hm := fun a b => if a.1 = k ∨ b.1 = k then 0 else
          comb.Hm a b - qsum ((List.range d).map (fun i =>
            qsum ((List.range d).map (fun j =>
              comb.Hm a (k, i) * rinv i j * comb.Hm (k, j) b)))),
        gv := fun a => if a.1 = k then 0 else
          comb.gv a - qsum ((List.range d).map (fun i =>
            qsum ((List.range d).map (fun j =>
              comb.Hm a (k, i) * rinv i j * comb.gv (k, j))))) }
    some { cond := cond, marg := marg, gradContribution := gradContribOf cond }

/-- Modelled from the spec: sequential elimination (specification 4.3): for
each variable of the ordering in turn, consume every factor of the pool
currently touching that variable, eliminate the variable from their combined
information, put the residual separator factor back into the pool, and record
the resulting clique.  Returns the cliques in elimination order together with
the final pool. -/
def elimRunP (dims : ℕ → ℕ) : List ℕ → Multiset HFactor →
    Option (List (ℕ × CliqueA) × Multiset HFactor)
  | [], pool => some ([], pool)
  | k :: rest, pool =>
    match elimKey dims k (pool.filter (fun f => k ∈ f.keys)).sum with
    | none => none
    | some cl =>
      match elimRunP dims rest (pool.filter (fun f => k ∉ f.keys) + {cl.marg}) with
      | none => none
      | some pr => some ((k, cl) :: pr.1, pr.2)

/-- Modelled from the spec: a nonlinear factor of the factor graph layer: the
ordered set of keys it touches, and its linearization at a given estimate
(specification 4.2), producing an information-form linear factor over exactly
its keys. -/
structure NLFactor where
  keys : Finset ℕ
  lin : (ℕ → List ℚ) → HFactor

/-- Well-formedness of a nonlinear factor, as the specification's factor
contract requires: its linearization depends only on the values of its own
keys and produces a linear factor over exactly its keys. -/
def NLWF (f : NLFactor) : Prop :=
  (∀ t1 t2 : ℕ → List ℚ, (∀ k ∈ f.keys, t1 k = t2 k) → f.lin t1 = f.lin t2) ∧
  ∀ t, (f.lin t).keys = f.keys

/-- Modelled from the spec: the mutable state of the incremental smoother:
the live factor graph (removed factors leave empty slots so indices stay
stable), the stored linearization point, the elimination ordering as the list
of live keys in index order, the Bayes tree as the cliques in elimination
order (tree structure is recovered from the separators), and the accepted
delta. -/
structure IState where
  factors : List (Option NLFactor)
  theta : ℕ → List ℚ
  order : List ℕ
  cliques : List (ℕ × CliqueA)
  delta : ℕ → List ℚ

/-- Local dimension of each variable under an estimate. -/
def dimsOf (t : ℕ → List ℚ) (k : ℕ) : ℕ := (t k).length

/-- Modelled from the spec: one update call's inputs (specification 4.5): new
factors, initial values for new variables, indices of factors to remove, and
the ordering-constraint group of each key (group 0 when unconstrained; higher
groups sort after lower ones in any elimination ordering computed
afterwards). -/
structure UInput where
  newFactors : List NLFactor
  newValues : List (ℕ × List ℚ)
  removeIndices : List ℕ
  groups : ℕ → ℕ

/-- Modelled from the spec: the update result record; the indices assigned to
the new factors are returned so callers can later remove them. -/
structure URes where
  newFactorsIndices : List ℕ

/-- Value bound to key `k` in an association list, empty when absent. -/
def lookupVal (l : List (ℕ × List ℚ)) (k : ℕ) : List ℚ :=
  match l.find? (fun p => p.1 == k) with
  | some p => p.2
  | none => []

/-- Modelled from the spec: the affected-set closure pass of findAffected
(specification 4.4): walking the cliques in elimination order, a clique is
marked when its frontal is a seed or appears in the separator of an
already-marked clique; since separators only point rootward (to later
positions), one pass reaches the closure containing every ancestor of every
seed's clique. -/
def closePass (seeds : Finset ℕ) : List (ℕ × CliqueA) → Finset ℕ → Finset ℕ → Finset ℕ
  | [], marks, _ => marks
  | kc :: rest, marks, pend =>
    if kc.1 ∈ seeds ∨ kc.1 ∈ pend then
      closePass seeds rest (insert kc.1 marks) (pend ∪ condSepSet kc.2.cond)
    else closePass seeds rest marks pend

/-- Factors recovered for removal by index. -/
def removedNL (s : IState) (u : UInput) : List NLFactor :=
  u.removeIndices.filterMap (fun i => s.factors.getD i none)

/-- New keys submitted by an update call. -/
def updNewKeys (u : UInput) : List ℕ := u.newValues.map Prod.fst

/-- Modelled from the spec: the seed variables of an update (specification
4.5 step 2): variables touched by the new factors, variables touched by the
removed factors, and the new variables. -/
def seedsOf (s : IState) (u : UInput) : Finset ℕ :=
  (u.newFactors.map NLFactor.keys).foldr (· ∪ ·) ∅ ∪
    ((removedNL s u).map NLFactor.keys).foldr (· ∪ ·) ∅ ∪
    (updNewKeys u).toFinset

/-- Modelled from the spec: the affected variable set of an update: the
ancestor closure of the seed set in the current tree, together with the new
variables. -/
def affectedSetOf (s : IState) (u : UInput) : Finset ℕ :=
  closePass (seedsOf s u) s.cliques ∅ ∅ ∪ (updNewKeys u).toFinset

/-- Modelled from the spec: the ordering constraint of 4.1: keys are grouped
by their constraint group, groups appear in ascending group-id order, and
within one group keys keep their given relative order (the model's
deterministic fill-reducing heuristic, which the specification leaves
pluggable). -/
def bucketSort (g : ℕ → ℕ) (keys : List ℕ) : List ℕ :=
  (finSort (keys.map g).toFinset).flatMap (fun gr =>
    keys.filter (fun k => g k == gr))

/-- First key of the ordering appearing in the separator of a conditional:
the clique's parent in the Bayes tree. -/
def parentKey (order : List ℕ) (c : GCond) : Option ℕ :=
  order.find? (fun k => decide (k ∈ condSepSet c))

/-- Modelled from the spec: the cached separator factors of the orphaned
subtrees of removeTop (specification 4.4): cliques that are not themselves
affected but whose parent is; their cached marginals summarize their subtrees
and are fed to the re-elimination instead of the subtrees' factors. -/
def orphanMargsOf (s : IState) (aset : Finset ℕ) : List HFactor :=
  (s.cliques.filter (fun kc => decide (kc.1 ∉ aset) &&
    (parentKey s.order kc.2.cond).any (fun p => decide (p ∈ aset)))).map
    (fun kc => kc.2.marg)

/-- Back-substitution through the cliques in reverse elimination order
(specification 4.5 step 8, with wildfire threshold zero, i.e. exact): each
frontal is solved from its conditional and the already-solved variables of
its separator. -/
def solveClique (cl : CliqueA) (acc : ℕ → List ℚ) : List ℚ :=
  let c := cl.cond
  let rhs : ℕ → ℚ := fun j => c.dv j - qsum (c.sep.map (fun vd =>
    qsum ((List.range vd.2).map (fun i => c.Sm j (vd.1, i) * (acc vd.1).getD i 0))))
  (List.range c.dimF).map (fun i =>
    qsum ((List.range c.dimF).map (fun j => c.Rinv i j * rhs j)))

/-- Full back-substitution over a clique list in elimination order. -/
def backSubst (cliques : List (ℕ × CliqueA)) : ℕ → List ℚ :=
  cliques.foldr (fun kc acc => fun k => if k = kc.1 then solveClique kc.2 acc else acc k)
    (fun _ => [])

/-- Masking of the factor slots listed in `rem` (absolute indices, the first
slot of the list having index `i`) with empty slots, keeping every index
stable. -/
def maskFrom (rem : List ℕ) : ℕ → List (Option NLFactor) → List (Option NLFactor)
  | _, [] => []
  | i, fo :: fs => (if i ∈ rem then none else fo) :: maskFrom rem (i + 1) fs

/-- Modelled from the spec: the update call's input validation: removal
indices must name distinct existing factors (InvalidRemovalError otherwise),
initial values must be for distinct not-yet-live keys, and every new factor
may only touch live or newly initialized variables (LinearizationError
otherwise). -/
def updValid (s : IState) (u : UInput) : Prop :=
  u.removeIndices.Nodup ∧
  (∀ i ∈ u.removeIndices, i < s.factors.length ∧
    (s.factors.getD i none).isSome = true) ∧
  (updNewKeys u).Nodup ∧ (∀ k ∈ updNewKeys u, k ∉ s.order) ∧
  (∀ f ∈ u.newFactors, f.keys ⊆ s.order.toFinset ∪ (updNewKeys u).toFinset)

instance (s : IState) (u : UInput) : Decidable (updValid s u) := by
  unfold updValid
  infer_instance

/-- The estimate after inserting the initial values of the new variables;
pre-existing entries are untouched (relinearization policy "never"). -/
def updTheta (s : IState) (u : UInput) : ℕ → List ℚ :=
  fun k => if k ∈ updNewKeys u then lookupVal u.newValues k else s.theta k

/-- The factor slots after an update: removed slots are masked and the new
factors are appended at the end. -/
def updFactors (s : IState) (u : UInput) : List (Option NLFactor) :=
  maskFrom u.removeIndices 0 s.factors ++ u.newFactors.map some

/-- The unaffected part of the ordering, in its previous relative order. -/
def updKept (s : IState) (u : UInput) : List ℕ :=
  s.order.filter (fun k => decide (k ∉ affectedSetOf s u))

/-- The cliques that survive removeTop: those whose frontal is unaffected. -/
def updKeptCliques (s : IState) (u : UInput) : List (ℕ × CliqueA) :=
  s.cliques.filter (fun kc => decide (kc.1 ∉ affectedSetOf s u))

/-- The elimination ordering computed over exactly the affected variable set
(specification 4.5 step 6), honoring the constraint groups; affected
variables keep their previous relative order inside each group and the new
variables come last inside their group. -/
def updAffOrder (s : IState) (u : UInput) : List ℕ :=
  bucketSort u.groups
    (s.order.filter (fun k => decide (k ∈ affectedSetOf s u)) ++ updNewKeys u)

/-- The factor pool for the re-elimination (specification 4.5 step 5): the
new factors plus the original factors recovered from the removed cliques, all
linearized at the current estimate, combined with the cached separator
factors of the orphaned subtrees. -/
def updPool (s : IState) (u : UInput) : Multiset HFactor :=
  ((((updFactors s u).filterMap id).filter
      (fun f => decide (f.keys ⊆ affectedSetOf s u))).map
    (fun f => f.lin (updTheta s u)) : List HFactor)
  + (orphanMargsOf s (affectedSetOf s u) : List HFactor)

/-- Modelled from the spec: one incremental update call (specification 4.5),
with the relinearization policy "never" (the configuration of the tests that
source the claims).  Validation failures and an indeterminate system during
re-elimination fail the call, mirroring the specification's fatal error
taxonomy.  Otherwise: the ordering, estimate and factor graph are extended;
the affected set is closed upward; the affected top of the tree is removed;
the affected original factors are (re)linearized and combined with the cached
marginals of the orphaned subtrees; the affected variables are re-eliminated
under an ordering honoring the constraint groups and placed after all
unaffected variables; the delta is recomputed by back-substitution; and the
new factor indices are returned. -/
def isamUpdate (s : IState) (u : UInput) : Option (IState × URes) :=
  if updValid s u then
    match elimRunP (dimsOf (updTheta s u)) (updAffOrder s u) (updPool s u) with
    | none => none
    | some pr =>
      some ({ factors := updFactors s u, theta := updTheta s u,
              order := updKept s u ++ updAffOrder s u,
              cliques := updKeptCliques s u ++ pr.1,
              delta := backSubst (updKeptCliques s u ++ pr.1) },
            { newFactorsIndices := List.range' s.factors.length u.newFactors.length })
  else none

/-- The state produced by a successful update whose affected re-elimination
returned the cliques cs (abbreviation for reasoning about isamUpdate). -/
def updState (s : IState) (u : UInput) (cs : List (ℕ × CliqueA)) : IState :=
  { factors := updFactors s u, theta := updTheta s u,
    order := updKept s u ++ updAffOrder s u,
    cliques := updKeptCliques s u ++ cs,
    delta := backSubst (updKeptCliques s u ++ cs) }

/-- The empty smoother. -/
def initISAM2 : IState :=
  { factors := [], theta := fun _ => [], order := [], cliques := [], delta := fun _ => [] }

/-- A sequence of update calls, failing when any call fails. -/
def applyUpdates : IState → List UInput → Option IState
  | s, [] => some s
  | s, u :: us =>
    match isamUpdate s u with
    | none => none
    | some pr => applyUpdates pr.1 us

/-- Modelled from the spec: the read-only view of the live factor graph,
including the empty slots of removed factors. -/
def getFactorsUnsafe (s : IState) : List (Option NLFactor) := s.factors

/-- Modelled from the spec: cloning an instance yields a fully independent
deep copy; in the pure value semantics of the model a deep copy is the value
itself, and independence is the statement that updates build new values
rather than mutate. -/
def cloneISAM2 (s : IState) : IState := s

/-- The factor slots an update sequence accumulates: each call masks the
removed slots and appends its new factors. -/
def accumFactors (us : List UInput) : List (Option NLFactor) :=
  us.foldl (fun acc u => maskFrom u.removeIndices 0 acc ++ u.newFactors.map some) []

/-- The live (non-removed) factors of a state. -/
def liveFactors (s : IState) : List NLFactor := s.factors.filterMap id

/-- The whole accumulated factor graph linearized from scratch at the
accumulated initial values, as the batch reference of isam_check does. -/
def liveLin (s : IState) : List HFactor := (liveFactors s).map (fun f => f.lin s.theta)

/-- The batch reference: eliminate the from-scratch linearization of the
entire accumulated factor graph once, sequentially, under the current
ordering (the expected side of isam_check). -/
def batchRun (s : IState) : Option (List (ℕ × CliqueA) × Multiset HFactor) :=
  elimRunP (dimsOf s.theta) s.order (liveLin s : List HFactor)

/-- Delta of the batch reference. -/
def batchDelta (s : IState) : ℕ → List ℚ :=
  match batchRun s with
  | some pr => backSubst pr.1
  | none => fun _ => []

/-- Modelled from the spec: calculateEstimate folds the outstanding delta
into the stored linearization point on demand. -/
def calculateEstimate (s : IState) : ℕ → List ℚ :=
  fun k => vecAdd (s.theta k) (s.delta k)

/-- The estimate of the batch reference: retract the accumulated initial
values by the batch delta. -/
def batchEstimate (s : IState) : ℕ → List ℚ :=
  fun k => vecAdd (s.theta k) (batchDelta s k)

/-- Scatter of one clique's cached gradient contribution into the gradient
vector, following the conditional's variable layout. -/
def cliqueGradAt (cl : CliqueA) : ℕ × ℕ → ℚ :=
  segLookup (varsWithDims cl.cond) cl.gradContribution

/-- Modelled from the spec: the whole-tree gradient at the zero-delta point,
concatenated from each clique's cached gradientContribution (specification
4.6). -/
def isamGradAtZero (s : IState) : ℕ × ℕ → ℚ :=
  fun co => qsum (s.cliques.map (fun kc => cliqueGradAt kc.2 co))

/-- The tree's conditionals viewed as a Jacobian factor graph, as the tests
build FactorGraph of JacobianFactor from the smoother. -/
def isamJacobians (s : IState) : List JFactor :=
  s.cliques.map (fun kc => jacobianOf kc.2.cond)

/-- Shape facts holding of every clique produced by the elimination engine:
the conditional's frontal is the clique's key, its dimensions agree with the
dimension table, the cached gradient contribution is the one recomputed from
the conditional, the cached separator factor ranges over exactly the
separator, and the frontal is not its own separator. -/
def cliqueShapeOK (dims : ℕ → ℕ) (kc : ℕ × CliqueA) : Prop :=
  kc.2.cond.frontal = kc.1 ∧ kc.2.cond.dimF = dims kc.1 ∧
  (∀ vd ∈ kc.2.cond.sep, vd.2 = dims vd.1) ∧
  kc.2.gradContribution = gradContribOf kc.2.cond ∧
  kc.2.marg.keys = condSepSet kc.2.cond ∧
  kc.1 ∉ condSepSet kc.2.cond

/-- Well-formedness of one update input: every submitted factor satisfies the
factor contract. -/
def WFInput (u : UInput) : Prop := ∀ f ∈ u.newFactors, NLWF f

/-- Well-formedness of a sequence of update inputs. -/
def WFInputs (us : List UInput) : Prop := ∀ u ∈ us, WFInput u

/-- The invariant every reachable smoother state satisfies: the ordering is
duplicate-free, the live factors are well-formed and live, the stored delta is
the back-substitution of the stored cliques, and — the central consistency
property — batch sequential elimination of the entire accumulated factor
graph, linearized from scratch at the accumulated initial values under the
current ordering, reproduces exactly the stored cliques. -/
def Good (s : IState) : Prop :=
  s.order.Nodup ∧
  (∀ f ∈ liveFactors s, NLWF f ∧ f.keys ⊆ s.order.toFinset) ∧
  s.delta = backSubst s.cliques ∧
  ∃ rest, batchRun s = some (s.cliques, rest)

/- ------------------------------------------------------------------ -/
/- Bayes tree relabeling model (claim C4).                             -/
/- ------------------------------------------------------------------ -/

mutual
/-- Modelled from the spec: a Bayes-tree clique of the missing Bayes tree
layer, for the relabeling operation: the keys of its Gaussian conditional
(frontals then parents), the keys of its cached separator factor (empty when
no factor is cached), and its children.  The numeric payload of conditionals
and cached factors is untouched by relabeling and is not represented. -/
inductive BTree : Type where
  | node : List ℕ → List ℕ → BForest → BTree
/-- Children list of a Bayes-tree clique. -/
inductive BForest : Type where
  | nil : BForest
  | cons : BTree → BForest → BForest
end

mutual
/-- Modelled from the spec: `permuteWithInverse` on a clique relabels every
index of its conditional and of its cached factor through the permutation and
recurses into the children, touching nothing structural. -/
def btPermute (p : ℕ → ℕ) : BTree → BTree
  | BTree.node ck fk ch => BTree.node (ck.map p) (fk.map p) (bfPermute p ch)
/-- Relabeling of a children list. -/
def bfPermute (p : ℕ → ℕ) : BForest → BForest
  | BForest.nil => BForest.nil
  | BForest.cons t f => BForest.cons (btPermute p t) (bfPermute p f)
end

mutual
/-- Structural shape of a clique tree: the tree with all key lists erased, so
that two trees have equal shapes exactly when their parent/child relationships
coincide. -/
def btStrip : BTree → BTree
  | BTree.node _ _ ch => BTree.node [] [] (bfStrip ch)
/-- Structural shape of a children list. -/
def bfStrip : BForest → BForest
  | BForest.nil => BForest.nil
  | BForest.cons t f => BForest.cons (btStrip t) (bfStrip f)
end

mutual
/-- All conditional keys of a clique tree, in preorder. -/
def btCondKeys : BTree → List ℕ
  | BTree.node ck _ ch => ck ++ bfCondKeys ch
/-- All conditional keys of a children list. -/
def bfCondKeys : BForest → List ℕ
  | BForest.nil => []
  | BForest.cons t f => btCondKeys t ++ bfCondKeys f
end

mutual
/-- All cached-factor keys of a clique tree, in preorder. -/
def btCachedKeys : BTree → List ℕ
  | BTree.node _ fk ch => fk ++ bfCachedKeys ch
/-- All cached-factor keys of a children list. -/
def bfCachedKeys : BForest → List ℕ
  | BForest.nil => []
  | BForest.cons t f => btCachedKeys t ++ bfCachedKeys f
end

mutual
/-- Number of cliques of a clique tree. -/
def btCount : BTree → ℕ
  | BTree.node _ _ ch => 1 + bfCount ch
/-- Number of cliques of a children list. -/
def bfCount : BForest → ℕ
  | BForest.nil => 0
  | BForest.cons t f => btCount t + bfCount f
end

/-- The permutation of the permute_cached test: variable index 2 is remapped
to 1 and every other index is fixed. -/
def permTwoToOne : ℕ → ℕ := fun k => if k = 2 then 1 else k

/- ------------------------------------------------------------------ -/
/- Ordering / delta-container extension model (claim C8).              -/
/- ------------------------------------------------------------------ -/

/-- Modelled from the spec: a delta container behind its indirection layer: a
logical-index-to-physical-slot permutation over the storage, and the
unpermuted storage of per-variable update vectors (the Permuted VectorValues
of the missing ordering layer). -/
structure PermutedVV where
  perm : List ℕ
  store : List (List ℚ)

/-- Modelled from the spec: the parallel state touched by AddVariables: the
stored estimate as key/value pairs, the accepted delta, the Gauss-Newton
scratch delta, the steepest-descent scratch delta, the per-variable
relinearization flags, and the ordering (the list of keys in index order). -/
structure VarState where
  theta : List (ℕ × List ℚ)
  delta : PermutedVV
  deltaNewton : PermutedVV
  deltaRg : PermutedVV
  replacedKeys : List Bool
  ordering : List ℕ

/-- Modelled from the spec: extending one delta container for new variables of
the given dimensions: the permutation gains identity mappings on the new
trailing slots, and the storage gains zero-initialized vectors of the correct
per-variable dimension. -/
def extendDelta (d : PermutedVV) (ds : List ℕ) : PermutedVV :=
  { perm := d.perm ++ List.range' d.perm.length ds.length,
    store := d.store ++ ds.map (fun n => List.replicate n 0) }

/-- Modelled from the spec: AddVariables appends the new key/value pairs to
the estimate, extends all three parallel delta containers with
zero-initialized slots, extends the relinearization flags with false, and
appends the new keys to the ordering with new trailing indices. -/
def addVariables (newTheta : List (ℕ × List ℚ)) (s : VarState) : VarState :=
  let ds := newTheta.map (fun kv => kv.2.length)
  { theta := s.theta ++ newTheta,
    delta := extendDelta s.delta ds,
    deltaNewton := extendDelta s.deltaNewton ds,
    deltaRg := extendDelta s.deltaRg ds,
    replacedKeys := s.replacedKeys ++ List.replicate newTheta.length false,
    ordering := s.ordering ++ newTheta.map Prod.fst }

/-- Properties by which a delta container was extended for new variables of
dimensions `ds`: the pre-existing storage slots and permutation mappings are
unchanged, the new trailing storage slots are zero vectors of the per-variable
dimensions, and the permutation is the identity on the new trailing slots. -/
def deltaExtendedBy (old new : PermutedVV) (ds : List ℕ) : Prop :=
  (∀ i, i < old.store.length → new.store.getD i [] = old.store.getD i []) ∧
  (∀ i, i < old.perm.length → new.perm.getD i 0 = old.perm.getD i 0) ∧
  (∀ j, j < ds.length →
    new.store.getD (old.store.length + j) [] = List.replicate (ds.getD j 0) 0) ∧
  (∀ j, j < ds.length → new.perm.getD (old.perm.length + j) 0 = old.perm.length + j) ∧
  new.store.length = old.store.length + ds.length ∧
  new.perm.length = old.perm.length + ds.length

/- ------------------------------------------------------------------ -/
/- A small concrete scenario: a chain of landmarks with odometry, used  -/
/- to exercise the update pipeline on closed inputs.                    -/
/- ------------------------------------------------------------------ -/

/-- A unary prior factor in information form on the scalar variable `k` with
right-hand side `r`. -/
def hfPrior (k : ℕ) (r : ℚ) : HFactor :=
  { keys := {k},
    Hm := fun a b => if a = (k, 0) ∧ b = (k, 0) then 1 else 0,
    gv := fun a => if a = (k, 0) then r else 0 }

/-- A binary odometry-style factor in information form between the scalar
variables `i` and `j` with measurement `m`. -/
def hfOdo (i j : ℕ) (m : ℚ) : HFactor :=
  { keys := {i, j},
    Hm := fun a b =>
      if a = (i, 0) ∧ b = (i, 0) then 1 else
      if a = (i, 0) ∧ b = (j, 0) then -1 else
      if a = (j, 0) ∧ b = (i, 0) then -1 else
      if a = (j, 0) ∧ b = (j, 0) then 1 else 0,
    gv := fun a => if a = (i, 0) then -m else if a = (j, 0) then m else 0 }

/-- A nonlinear factor whose linearization is the same linear factor at every
estimate (the already-linear case, which the driving tests exercise with
relinearization disabled). -/
def constNL (h : HFactor) : NLFactor := { keys := h.keys, lin := fun _ => h }

/-- Scenario update 1: a prior on variable 0. -/
def updA : UInput :=
  { newFactors := [constNL (hfPrior 0 0)], newValues := [(0, [0])],
    removeIndices := [], groups := fun _ => 0 }

/-- Scenario update 2: odometry from 0 to the new variable 1. -/
def updB : UInput :=
  { newFactors := [constNL (hfOdo 0 1 1)], newValues := [(1, [0])],
    removeIndices := [], groups := fun _ => 0 }

/-- Scenario update 3: three odometry factors reaching the new variables 2, 3
and 4, with the ordering of 3 and 4 constrained to the last two groups. -/
def updC : UInput :=
  { newFactors := [constNL (hfOdo 1 2 1), constNL (hfOdo 1 3 1), constNL (hfOdo 3 4 1)],
    newValues := [(2, [0]), (3, [0]), (4, [0])],
    removeIndices := [], groups := fun k => if k = 3 then 1 else if k = 4 then 2 else 0 }

/-- Scenario update: a redundant extra prior on variable 1 (so that removing
it later leaves the system well determined). -/
def updD : UInput :=
  { newFactors := [constNL (hfPrior 1 1)], newValues := [],
    removeIndices := [], groups := fun _ => 0 }

/-- Scenario update: remove the factor at slot 2 (the index returned for the
factor of updD), submitting no new factors and no new values. -/
def updE : UInput :=
  { newFactors := [], newValues := [], removeIndices := [2], groups := fun _ => 0 }

/-- The state after updates updA and updB. -/
def stAB : IState := (applyUpdates initISAM2 [updA, updB]).getD initISAM2

/-- The state after updates updA, updB and updC. -/
def stABC : IState := (applyUpdates initISAM2 [updA, updB, updC]).getD initISAM2

/-- The state and result of the constrained update updC on stAB. -/
def prC : IState × URes :=
  (isamUpdate stAB updC).getD (initISAM2, { newFactorsIndices := [] })

/-- The state and result of the update updD on stAB. -/
def prD : IState × URes :=
  (isamUpdate stAB updD).getD (initISAM2, { newFactorsIndices := [] })

/-- The state and result of the removal update updE after updD. -/
def prE : IState × URes :=
  (isamUpdate prD.1 updE).getD (initISAM2, { newFactorsIndices := [] })

/-- A placeholder clique used as the default of list lookups. -/
def condDefault : GCond :=
  { frontal := 0, dimF := 0, sep := [], Rm := fun _ _ => 0,
    Rinv := fun _ _ => 0, Sm := fun _ _ => 0, dv := fun _ => 0 }

def cliqueDefault : ℕ × CliqueA :=
  (0, { cond := condDefault, marg := 0, gradContribution := [] })

/- ------------------------------------------------------------------ -/
/- Theorems.                                                           -/
/- ------------------------------------------------------------------ -/

theorem finSort_coe (s : Finset ℕ) : ((finSort s : List ℕ) : Multiset ℕ) = s.val := by
  cases s with
  | mk val nd =>
    induction val using Quotient.inductionOn with
    | h l => exact Quot.sound (List.perm_insertionSort _ l)

theorem mem_finSort (s : Finset ℕ) (a : ℕ) : a ∈ finSort s ↔ a ∈ s := by
  rw [← Multiset.mem_coe, finSort_coe]
  exact (Finset.mem_def).symm

theorem finSort_nodup (s : Finset ℕ) : (finSort s).Nodup := by
  have h := s.nodup
  rw [← finSort_coe] at h
  exact Multiset.coe_nodup.mp h

theorem finSort_toFinset (s : Finset ℕ) : (finSort s).toFinset = s := by
  ext a
  rw [List.mem_toFinset, mem_finSort]

theorem rowDot_zero (f : JFactor) (r : ℕ) : rowDot f r (fun _ => 0) = 0 := by
  unfold rowDot qsum
  refine List.sum_eq_zero ?_
  intro x hx
  simp only [List.mem_map] at hx
  obtain ⟨vd, _, rfl⟩ := hx
  refine List.sum_eq_zero ?_
  intro y hy
  simp only [List.mem_map] at hy
  obtain ⟨i, _, rfl⟩ := hy
  exact mul_zero _

theorem gradientF_at_zero (fg : List JFactor) :
    gradientF fg (fun _ => 0) = gradientAtZeroF fg := by
  funext co
  unfold gradientF gradientAtZeroF
  congr 1
  refine List.map_congr_left ?_
  intro f _
  congr 1
  refine List.map_congr_left ?_
  intro r _
  rw [rowDot_zero]
  ring

theorem hfAdd_keys (a b : HFactor) : (a + b).keys = a.keys ∪ b.keys := rfl

theorem hfZero_keys : (0 : HFactor).keys = ∅ := rfl

theorem keys_subset_sum_keys :
    ∀ (T : Multiset HFactor), ∀ f ∈ T, f.keys ⊆ T.sum.keys := fun T =>
  Multiset.induction_on T (by intro f hf; exact absurd hf (by simp))
    (fun a s ih f hf => by
      rw [Multiset.sum_cons, hfAdd_keys]
      rcases Multiset.mem_cons.mp hf with h | h
      · subst h; exact Finset.subset_union_left
      · exact (ih f h).trans Finset.subset_union_right)

theorem sum_keys_subset (U : Finset ℕ) :
    ∀ (T : Multiset HFactor), (∀ f ∈ T, f.keys ⊆ U) → T.sum.keys ⊆ U := fun T =>
  Multiset.induction_on T (fun _ => by
      rw [Multiset.sum_zero, hfZero_keys]; exact Finset.empty_subset _)
    (fun a s ih h => by
      rw [Multiset.sum_cons, hfAdd_keys]
      exact Finset.union_subset (h a (Multiset.mem_cons_self _ _))
        (ih fun f hf => h f (Multiset.mem_cons_of_mem hf)))

theorem elimKey_shape {dims : ℕ → ℕ} {k : ℕ} {comb : HFactor} {cl : CliqueA}
    (h : elimKey dims k comb = some cl) :
    cl.cond.frontal = k ∧ cl.cond.dimF = dims k ∧
    cl.cond.sep = (finSort (comb.keys.erase k)).map (fun v => (v, dims v)) ∧
    cl.marg.keys = comb.keys.erase k ∧
    cl.gradContribution = gradContribOf cl.cond := by
  simp only [elimKey] at h
  split at h
  · exact absurd h (by simp)
  · obtain rfl := Option.some.inj h
    exact ⟨rfl, rfl, rfl, rfl, rfl⟩

theorem condSepSet_elimKey {dims : ℕ → ℕ} {k : ℕ} {comb : HFactor} {cl : CliqueA}
    (h : elimKey dims k comb = some cl) :
    condSepSet cl.cond = comb.keys.erase k := by
  obtain ⟨-, -, hsep, -, -⟩ := elimKey_shape h
  rw [condSepSet, hsep, List.map_map]
  have : (Prod.fst ∘ fun v => (v, dims v)) = id := rfl
  rw [this, List.map_id, finSort_toFinset]

theorem elimRunP_nil (dims : ℕ → ℕ) (P : Multiset HFactor) :
    elimRunP dims [] P = some ([], P) := rfl

theorem elimRunP_cons_inv {dims : ℕ → ℕ} {k : ℕ} {L : List ℕ} {P : Multiset HFactor}
    {cs : List (ℕ × CliqueA)} {R : Multiset HFactor}
    (h : elimRunP dims (k :: L) P = some (cs, R)) :
    ∃ cl cs2, elimKey dims k (P.filter (fun f => k ∈ f.keys)).sum = some cl ∧
      elimRunP dims L (P.filter (fun f => k ∉ f.keys) + {cl.marg}) = some (cs2, R) ∧
      cs = (k, cl) :: cs2 := by
  rw [elimRunP] at h
  split at h
  · exact absurd h (by simp)
  case _ cl hcl =>
    split at h
    · exact absurd h (by simp)
    case _ pr hpr =>
      obtain ⟨h1, h2⟩ := Prod.mk.injEq .. ▸ Option.some.inj h
      exact ⟨cl, pr.1, hcl, by rw [hpr, ← h2], h1.symm⟩

theorem elimRunP_cons_eq (dims : ℕ → ℕ) (k : ℕ) (L : List ℕ) (P : Multiset HFactor)
    {cl : CliqueA} (hcl : elimKey dims k (P.filter (fun f => k ∈ f.keys)).sum = some cl) :
    elimRunP dims (k :: L) P =
      (elimRunP dims L (P.filter (fun f => k ∉ f.keys) + {cl.marg})).map
        (fun pr => ((k, cl) :: pr.1, pr.2)) := by
  rw [elimRunP, hcl]
  dsimp only
  cases elimRunP dims L (P.filter (fun f => k ∉ f.keys) + {cl.marg}) <;> rfl

theorem elimRunP_add_untouched (dims : ℕ → ℕ) :
    ∀ (L : List ℕ) (P Q : Multiset HFactor), (∀ f ∈ Q, ∀ k ∈ L, k ∉ f.keys) →
    elimRunP dims L (P + Q) = (elimRunP dims L P).map (fun pr => (pr.1, pr.2 + Q)) := by
  intro L
  induction L with
  | nil => intro P Q _; rfl
  | cons k L ih =>
    intro P Q h
    have hQt : (P + Q).filter (fun f => k ∈ f.keys) = P.filter (fun f => k ∈ f.keys) := by
      rw [Multiset.filter_add,
        Multiset.filter_eq_nil.mpr (fun f hf => h f hf k (List.mem_cons_self _ _)), add_zero]
    have hQu : (P + Q).filter (fun f => k ∉ f.keys) = P.filter (fun f => k ∉ f.keys) + Q := by
      rw [Multiset.filter_add,
        Multiset.filter_eq_self.mpr (fun f hf => h f hf k (List.mem_cons_self _ _))]
    rw [elimRunP, elimRunP, hQt]
    cases hcl : elimKey dims k (P.filter (fun f => k ∈ f.keys)).sum with
    | none => rfl
    | some cl =>
      dsimp only
      rw [hQu, add_right_comm,
        ih (P.filter (fun f => k ∉ f.keys) + {cl.marg}) Q
          (fun f hf j hj => h f hf j (List.mem_cons_of_mem _ hj))]
      cases elimRunP dims L (P.filter (fun f => k ∉ f.keys) + {cl.marg}) <;> rfl

theorem elimRunP_append (dims : ℕ → ℕ) :
    ∀ (L1 L2 : List ℕ) (P : Multiset HFactor),
    elimRunP dims (L1 ++ L2) P =
      match elimRunP dims L1 P with
      | none => none
      | some pr =>
        match elimRunP dims L2 pr.2 with
        | none => none
        | some pr2 => some (pr.1 ++ pr2.1, pr2.2) := by
  intro L1
  induction L1 with
  | nil =>
    intro L2 P
    rw [List.nil_append, elimRunP_nil]
    dsimp only
    cases elimRunP dims L2 P <;> rfl
  | cons k L ih =>
    intro L2 P
    rw [List.cons_append, elimRunP, elimRunP]
    cases hcl : elimKey dims k (P.filter (fun f => k ∈ f.keys)).sum with
    | none => rfl
    | some cl =>
      dsimp only
      rw [ih]
      cases elimRunP dims L (P.filter (fun f => k ∉ f.keys) + {cl.marg}) with
      | none => rfl
      | some pr =>
        dsimp only
        cases elimRunP dims L2 pr.2 <;> rfl

theorem pool_step_subset {k : ℕ} {L : List ℕ} {P : Multiset HFactor}
    (hP : ∀ f ∈ P, f.keys ⊆ (k :: L).toFinset) {cl : CliqueA}
    (hcl : elimKey dims k (P.filter (fun f => k ∈ f.keys)).sum = some cl) :
    ∀ f ∈ P.filter (fun f => k ∉ f.keys) + {cl.marg}, f.keys ⊆ L.toFinset := by
  intro f hf
  rcases Multiset.mem_add.mp hf with hf | hf
  · have hmem := Multiset.mem_filter.mp hf
    intro x hx
    have := hP f hmem.1 hx
    rw [List.toFinset_cons, Finset.mem_insert] at this
    rcases this with h | h
    · exact absurd (h ▸ hx) hmem.2
    · exact h
  · rw [Multiset.mem_singleton.mp hf]
    obtain ⟨-, -, -, hm, -⟩ := elimKey_shape hcl
    rw [hm]
    refine Finset.Subset.trans (Finset.erase_subset_erase _ ?_)
      (Finset.erase_insert_subset _ _)
    have hsum : (P.filter (fun f => k ∈ f.keys)).sum.keys ⊆ (k :: L).toFinset :=
      sum_keys_subset _ _ (fun g hg => hP g (Multiset.mem_of_mem_filter hg))
    rw [List.toFinset_cons] at hsum
    exact hsum

theorem run_struct (dims : ℕ → ℕ) :
    ∀ (L : List ℕ) (P : Multiset HFactor) cs R,
    elimRunP dims L P = some (cs, R) → L.Nodup →
    (∀ f ∈ P, f.keys ⊆ L.toFinset) →
    cs.map Prod.fst = L ∧
    (∀ kc ∈ cs, cliqueShapeOK dims kc ∧ condSepSet kc.2.cond ⊆ L.toFinset) ∧
    List.Pairwise (fun a b => a.1 ∉ condSepSet b.2.cond) cs ∧
    (∀ f ∈ R, f.keys = ∅) := by
  intro L
  induction L with
  | nil =>
    intro P cs R h _ hP
    rw [elimRunP_nil] at h
    obtain ⟨h1, h2⟩ := Prod.mk.injEq .. ▸ Option.some.inj h
    subst h1; subst h2
    refine ⟨rfl, by simp, List.Pairwise.nil, fun f hf => ?_⟩
    exact Finset.subset_empty.mp (by simpa using hP f hf)
  | cons k L ih =>
    intro P cs R h hnd hP
    obtain ⟨cl, cs2, hcl, hrun, rfl⟩ := elimRunP_cons_inv h
    have hpool := pool_step_subset hP hcl
    obtain ⟨hmap, hshape, hpair, hres⟩ :=
      ih _ _ _ hrun (List.nodup_cons.mp hnd).2 hpool
    have hsepcl : condSepSet cl.cond = (P.filter (fun f => k ∈ f.keys)).sum.keys.erase k :=
      condSepSet_elimKey hcl
    have hsepL : condSepSet cl.cond ⊆ L.toFinset := by
      rw [hsepcl]
      refine Finset.Subset.trans (Finset.erase_subset_erase _ ?_)
        (Finset.erase_insert_subset _ _)
      have hsum : (P.filter (fun f => k ∈ f.keys)).sum.keys ⊆ (k :: L).toFinset :=
        sum_keys_subset _ _ (fun g hg => hP g (Multiset.mem_of_mem_filter hg))
      rw [List.toFinset_cons] at hsum
      exact hsum
    obtain ⟨hf, hd, hsep, hm, hg⟩ := elimKey_shape hcl
    refine ⟨by simpa using hmap, ?_, ?_, hres⟩
    · intro kc hkc
      rcases List.mem_cons.mp hkc with rfl | hkc
      · refine ⟨⟨hf, hd, ?_, hg, by rw [hm, hsepcl], by rw [hsepcl]; exact Finset.not_mem_erase _ _⟩, ?_⟩
        · intro vd hvd
          rw [hsep] at hvd
          obtain ⟨v, -, rfl⟩ := List.mem_map.mp hvd
          rfl
        · exact hsepL.trans (by rw [List.toFinset_cons]; exact Finset.subset_insert _ _)
      · obtain ⟨h1, h2⟩ := hshape kc hkc
        exact ⟨h1, h2.trans (by rw [List.toFinset_cons]; exact Finset.subset_insert _ _)⟩
    · refine List.Pairwise.cons ?_ hpair
      intro kc hkc
      have h2 := (hshape kc hkc).2
      intro hk
      exact (List.nodup_cons.mp hnd).1 (List.mem_toFinset.mp (h2 hk))

theorem run_destiny (dims : ℕ → ℕ) :
    ∀ (L : List ℕ) (P : Multiset HFactor) cs R,
    elimRunP dims L P = some (cs, R) →
    ∀ f ∈ P, (∃ p cl, L.find? (fun j => decide (j ∈ f.keys)) = some p ∧ (p, cl) ∈ cs ∧
        f.keys ⊆ insert p (condSepSet cl.cond)) ∨
      (L.find? (fun j => decide (j ∈ f.keys)) = none ∧ f ∈ R) := by
  intro L
  induction L with
  | nil =>
    intro P cs R h f hf
    rw [elimRunP_nil] at h
    obtain ⟨-, h2⟩ := Prod.mk.injEq .. ▸ Option.some.inj h
    exact Or.inr ⟨rfl, h2 ▸ hf⟩
  | cons k L ih =>
    intro P cs R h f hf
    obtain ⟨cl, cs2, hcl, hrun, rfl⟩ := elimRunP_cons_inv h
    by_cases hk : k ∈ f.keys
    · refine Or.inl ⟨k, cl, ?_, List.mem_cons_self _ _, ?_⟩
      · rw [List.find?_cons]
        simp [hk]
      · have h1 : f.keys ⊆ (P.filter (fun f => k ∈ f.keys)).sum.keys :=
          keys_subset_sum_keys _ f (Multiset.mem_filter.mpr ⟨hf, hk⟩)
        rw [condSepSet_elimKey hcl, Finset.subset_insert_iff]
        exact (Finset.erase_subset_erase _ h1)
    · have hf2 : f ∈ P.filter (fun f => k ∉ f.keys) + {cl.marg} :=
        Multiset.mem_add.mpr (Or.inl (Multiset.mem_filter.mpr ⟨hf, hk⟩))
      have hskip : List.find? (fun j => decide (j ∈ f.keys)) (k :: L) =
          List.find? (fun j => decide (j ∈ f.keys)) L := by
        rw [List.find?_cons]
        simp [hk]
      rcases ih _ _ _ hrun f hf2 with ⟨p, cl2, h1, h2, h3⟩ | ⟨h1, h2⟩
      · exact Or.inl ⟨p, cl2, hskip ▸ h1, List.mem_cons_of_mem _ h2, h3⟩
      · exact Or.inr ⟨hskip ▸ h1, h2⟩

theorem run_rip (dims : ℕ → ℕ) :
    ∀ (L : List ℕ) (P : Multiset HFactor) cs R,
    elimRunP dims L P = some (cs, R) → L.Nodup →
    (∀ f ∈ P, f.keys ⊆ L.toFinset) →
    ∀ kc ∈ cs, (∃ p cl, L.find? (fun j => decide (j ∈ kc.2.marg.keys)) = some p ∧
        (p, cl) ∈ cs ∧ kc.2.marg.keys ⊆ insert p (condSepSet cl.cond)) ∨
      kc.2.marg.keys = ∅ := by
  intro L
  induction L with
  | nil =>
    intro P cs R h _ _ kc hkc
    rw [elimRunP_nil] at h
    obtain ⟨h1, -⟩ := Prod.mk.injEq .. ▸ Option.some.inj h
    exact absurd (h1 ▸ hkc) (List.not_mem_nil _)
  | cons k L ih =>
    intro P cs R h hnd hP kc hkc
    obtain ⟨cl, cs2, hcl, hrun, rfl⟩ := elimRunP_cons_inv h
    have hpool := pool_step_subset hP hcl
    have hknotin : ∀ kc2 ∈ cs2, (k : ℕ) ∉ kc2.2.marg.keys := by
      intro kc2 hkc2
      obtain ⟨-, hshape, -, -⟩ := run_struct dims L _ _ _ hrun (List.nodup_cons.mp hnd).2 hpool
      obtain ⟨⟨-, -, -, -, hmk, -⟩, hsub⟩ := hshape kc2 hkc2
      rw [hmk]
      intro hmem
      exact (List.nodup_cons.mp hnd).1 (List.mem_toFinset.mp (hsub hmem))
    rcases List.mem_cons.mp hkc with rfl | hkc2
    · have hmem : cl.marg ∈ P.filter (fun f => k ∉ f.keys) + {cl.marg} :=
        Multiset.mem_add.mpr (Or.inr (Multiset.mem_singleton.mpr rfl))
      have hknot : (k : ℕ) ∉ cl.marg.keys := by
        obtain ⟨-, -, -, hm, -⟩ := elimKey_shape hcl
        rw [hm]; exact Finset.not_mem_erase _ _
      have hskip : List.find? (fun j => decide (j ∈ cl.marg.keys)) (k :: L) =
          List.find? (fun j => decide (j ∈ cl.marg.keys)) L := by
        rw [List.find?_cons]; simp [hknot]
      rcases run_destiny dims L _ _ _ hrun cl.marg hmem with ⟨p, cl2, h1, h2, h3⟩ | ⟨h1, -⟩
      · exact Or.inl ⟨p, cl2, hskip ▸ h1, List.mem_cons_of_mem _ h2, h3⟩
      · refine Or.inr (Finset.eq_empty_iff_forall_not_mem.mpr fun x hx => ?_)
        have hxL : x ∈ L.toFinset := hpool cl.marg hmem hx
        have := List.find?_eq_none.mp h1 x (List.mem_toFinset.mp hxL)
        simp [hx] at this
    · have hskip : List.find? (fun j => decide (j ∈ kc.2.marg.keys)) (k :: L) =
          List.find? (fun j => decide (j ∈ kc.2.marg.keys)) L := by
        rw [List.find?_cons]; simp [hknotin kc hkc2]
      rcases ih _ _ _ hrun (List.nodup_cons.mp hnd).2 hpool kc hkc2 with
        ⟨p, cl2, h1, h2, h3⟩ | h1
      · exact Or.inl ⟨p, cl2, hskip ▸ h1, List.mem_cons_of_mem _ h2, h3⟩
      · exact Or.inr h1

theorem elimKey_congr (dims1 dims2 : ℕ → ℕ) (k : ℕ) (comb : HFactor)
    (hk : dims1 k = dims2 k) (hall : ∀ v ∈ comb.keys, dims1 v = dims2 v) :
    elimKey dims1 k comb = elimKey dims2 k comb := by
  simp only [elimKey]
  rw [hk]
  cases matInvQ ((List.range (dims2 k)).map fun i =>
      (List.range (dims2 k)).map fun j => comb.Hm (k, i) (k, j)) with
  | none => rfl
  | some inv =>
    dsimp only
    have hsep : ((finSort (comb.keys.erase k)).map (fun v => (v, dims1 v)))
        = (finSort (comb.keys.erase k)).map (fun v => (v, dims2 v)) :=
      List.map_congr_left (fun v hv => by
        rw [hall v (Finset.mem_of_mem_erase ((mem_finSort _ _).mp hv))])
    have hSm : (fun r (co : ℕ × ℕ) =>
        if r < dims2 k ∧ co.1 ∈ comb.keys.erase k ∧ co.2 < dims1 co.1
        then comb.Hm (k, r) co else 0) = (fun r (co : ℕ × ℕ) =>
        if r < dims2 k ∧ co.1 ∈ comb.keys.erase k ∧ co.2 < dims2 co.1
        then comb.Hm (k, r) co else 0) := by
      funext r co
      by_cases hco : co.1 ∈ comb.keys.erase k
      · rw [hall co.1 (Finset.mem_of_mem_erase hco)]
      · simp [hco]
    rw [hsep, hSm]

theorem sum_keys_mem :
    ∀ (T : Multiset HFactor), ∀ v ∈ T.sum.keys, ∃ f ∈ T, v ∈ f.keys := fun T =>
  Multiset.induction_on T
    (by intro v hv; rw [Multiset.sum_zero, hfZero_keys] at hv; exact absurd hv (by simp))
    (fun a s ih v hv => by
      rw [Multiset.sum_cons, hfAdd_keys] at hv
      rcases Finset.mem_union.mp hv with hv | hv
      · exact ⟨a, Multiset.mem_cons_self _ _, hv⟩
      · obtain ⟨f, hf, hvf⟩ := ih v hv
        exact ⟨f, Multiset.mem_cons_of_mem hf, hvf⟩)

theorem elimRunP_congr (dims1 dims2 : ℕ → ℕ) :
    ∀ (L : List ℕ) (P : Multiset HFactor),
    (∀ j ∈ L, dims1 j = dims2 j) → (∀ f ∈ P, ∀ v ∈ f.keys, dims1 v = dims2 v) →
    elimRunP dims1 L P = elimRunP dims2 L P := by
  intro L
  induction L with
  | nil => intro P _ _; rfl
  | cons k L ih =>
    intro P hd hP
    have hsum : ∀ v ∈ (P.filter (fun f => k ∈ f.keys)).sum.keys, dims1 v = dims2 v := by
      intro v hv
      obtain ⟨f, hf, hvf⟩ := sum_keys_mem _ v hv
      exact hP f (Multiset.mem_of_mem_filter hf) v hvf
    have hck := elimKey_congr dims1 dims2 k (P.filter (fun f => k ∈ f.keys)).sum
      (hd k (List.mem_cons_self _ _)) hsum
    rw [elimRunP, elimRunP, hck]
    cases hcl : elimKey dims2 k (P.filter (fun f => k ∈ f.keys)).sum with
    | none => rfl
    | some cl =>
      dsimp only
      have hpool2 : ∀ f ∈ P.filter (fun f => k ∉ f.keys) + {cl.marg},
          ∀ v ∈ f.keys, dims1 v = dims2 v := by
        intro f hf v hv
        rcases Multiset.mem_add.mp hf with hf | hf
        · exact hP f (Multiset.mem_of_mem_filter hf) v hv
        · rw [Multiset.mem_singleton.mp hf] at hv
          obtain ⟨-, -, -, hm, -⟩ := elimKey_shape hcl
          rw [hm] at hv
          exact hsum v (Finset.mem_of_mem_erase hv)
      rw [ih _ (fun j hj => hd j (List.mem_cons_of_mem _ hj)) hpool2]

theorem closePass_mono (seeds : Finset ℕ) :
    ∀ (l : List (ℕ × CliqueA)) (marks pend : Finset ℕ),
    marks ⊆ closePass seeds l marks pend := by
  intro l
  induction l with
  | nil => intro marks pend; exact Finset.Subset.refl _
  | cons kc rest ih =>
    intro marks pend
    by_cases h : kc.1 ∈ seeds ∨ kc.1 ∈ pend
    · rw [closePass, if_pos h]
      exact (Finset.subset_insert _ _).trans (ih _ _)
    · rw [closePass, if_neg h]
      exact ih _ _

theorem closePass_subset (seeds : Finset ℕ) :
    ∀ (l : List (ℕ × CliqueA)) (marks pend : Finset ℕ),
    closePass seeds l marks pend ⊆ marks ∪ (l.map Prod.fst).toFinset := by
  intro l
  induction l with
  | nil => intro marks pend; simp [closePass]
  | cons kc rest ih =>
    intro marks pend
    by_cases h : kc.1 ∈ seeds ∨ kc.1 ∈ pend
    · rw [closePass, if_pos h]
      refine (ih _ _).trans ?_
      intro x hx
      rcases Finset.mem_union.mp hx with hx | hx
      · rcases Finset.mem_insert.mp hx with rfl | hx
        · simp
        · exact Finset.mem_union_left _ hx
      · simp only [List.map_cons, List.toFinset_cons]
        exact Finset.mem_union_right _ (Finset.mem_insert_of_mem hx)
    · rw [closePass, if_neg h]
      refine (ih _ _).trans ?_
      intro x hx
      rcases Finset.mem_union.mp hx with hx | hx
      · exact Finset.mem_union_left _ hx
      · simp only [List.map_cons, List.toFinset_cons]
        exact Finset.mem_union_right _ (Finset.mem_insert_of_mem hx)

theorem closePass_pend (seeds : Finset ℕ) :
    ∀ (l : List (ℕ × CliqueA)) (marks pend : Finset ℕ) (v : ℕ),
    v ∈ pend → v ∈ l.map Prod.fst → v ∈ closePass seeds l marks pend := by
  intro l
  induction l with
  | nil => intro marks pend v _ hv; exact absurd hv (List.not_mem_nil _)
  | cons kc rest ih =>
    intro marks pend v hvp hv
    rcases List.mem_cons.mp hv with rfl | hv
    · rw [closePass, if_pos (Or.inr hvp)]
      exact closePass_mono seeds _ _ _ (Finset.mem_insert_self _ _)
    · by_cases h : kc.1 ∈ seeds ∨ kc.1 ∈ pend
      · rw [closePass, if_pos h]
        exact ih _ _ v (Finset.mem_union_left _ hvp) hv
      · rw [closePass, if_neg h]
        exact ih _ _ v hvp hv

theorem closePass_seeds (seeds : Finset ℕ) :
    ∀ (l : List (ℕ × CliqueA)) (marks pend : Finset ℕ) (kc : ℕ × CliqueA),
    kc ∈ l → kc.1 ∈ seeds → kc.1 ∈ closePass seeds l marks pend := by
  intro l
  induction l with
  | nil => intro marks pend kc h; exact absurd h (List.not_mem_nil _)
  | cons kc0 rest ih =>
    intro marks pend kc hmem hseed
    rcases List.mem_cons.mp hmem with rfl | hmem
    · rw [closePass, if_pos (Or.inl hseed)]
      exact closePass_mono seeds _ _ _ (Finset.mem_insert_self _ _)
    · by_cases h : kc0.1 ∈ seeds ∨ kc0.1 ∈ pend
      · rw [closePass, if_pos h]
        exact ih _ _ kc hmem hseed
      · rw [closePass, if_neg h]
        exact ih _ _ kc hmem hseed

theorem closePass_closed (seeds : Finset ℕ) :
    ∀ (l : List (ℕ × CliqueA)) (marks pend : Finset ℕ),
    (l.map Prod.fst).Nodup →
    (∀ x ∈ marks, x ∉ l.map Prod.fst) →
    List.Pairwise (fun a b => a.1 ∉ condSepSet b.2.cond) l →
    (∀ a ∈ l, a.1 ∉ condSepSet a.2.cond) →
    (∀ a ∈ l, condSepSet a.2.cond ⊆ (l.map Prod.fst).toFinset) →
    ∀ a ∈ l, a.1 ∈ closePass seeds l marks pend →
      condSepSet a.2.cond ⊆ closePass seeds l marks pend := by
  intro l
  induction l with
  | nil => intro marks pend _ _ _ _ _ a ha; exact absurd ha (List.not_mem_nil _)
  | cons kc rest ih =>
    intro marks pend hnd hdisj hpair hself hsub a ha hmem
    rw [List.map_cons] at hnd
    have hnd2 := List.nodup_cons.mp hnd
    have hsub2 : ∀ b ∈ kc :: rest, condSepSet b.2.cond ⊆ (rest.map Prod.fst).toFinset := by
      intro b hb v hv
      have h1 : v ∈ ((kc :: rest).map Prod.fst).toFinset := hsub b hb hv
      simp only [List.map_cons, List.toFinset_cons, Finset.mem_insert] at h1
      rcases h1 with rfl | h1
      · rcases List.mem_cons.mp hb with rfl | hb
        · exact absurd hv (hself b (List.mem_cons_self _ _))
        · exact absurd hv (List.rel_of_pairwise_cons hpair hb)
      · exact h1
    by_cases h : kc.1 ∈ seeds ∨ kc.1 ∈ pend
    · rw [closePass, if_pos h] at hmem ⊢
      rcases List.mem_cons.mp ha with rfl | ha
      · intro v hv
        exact closePass_pend seeds _ _ _ v
          (Finset.mem_union_right _ hv)
          (List.mem_toFinset.mp (hsub2 a (List.mem_cons_self _ _) hv))
      · exact ih _ _ hnd2.2
          (by
            intro x hx
            rcases Finset.mem_insert.mp hx with rfl | hx
            · exact hnd2.1
            · intro hx2
              exact hdisj x hx (List.mem_cons_of_mem _ hx2))
          (List.Pairwise.sublist (List.sublist_cons_self _ _) hpair)
          (fun b hb => hself b (List.mem_cons_of_mem _ hb))
          (fun b hb => hsub2 b (List.mem_cons_of_mem _ hb)) a ha hmem
    · rw [closePass, if_neg h] at hmem ⊢
      rcases List.mem_cons.mp ha with rfl | ha
      · exfalso
        have := closePass_subset seeds rest marks pend hmem
        rcases Finset.mem_union.mp this with h1 | h1
        · exact hdisj a.1 h1 (by rw [List.map_cons]; exact List.mem_cons_self _ _)
        · exact hnd2.1 (List.mem_toFinset.mp h1)
      · exact ih _ _ hnd2.2
          (fun x hx hx2 => hdisj x hx (List.mem_cons_of_mem _ hx2))
          (List.Pairwise.sublist (List.sublist_cons_self _ _) hpair)
          (fun b hb => hself b (List.mem_cons_of_mem _ hb))
          (fun b hb => hsub2 b (List.mem_cons_of_mem _ hb)) a ha hmem

theorem sim_extract (dims : ℕ → ℕ) (A : Finset ℕ) :
    ∀ (L : List ℕ) (P : Multiset HFactor) cs R,
    elimRunP dims L P = some (cs, R) →
    L.Nodup →
    (∀ f ∈ P, f.keys ⊆ L.toFinset) →
    (∀ kc ∈ cs, kc.1 ∈ A → condSepSet kc.2.cond ⊆ A) →
    elimRunP dims (L.filter (fun j => decide (j ∉ A)))
        (P.filter (fun f => ¬ f.keys ⊆ A)) =
      some (cs.filter (fun kc => decide (kc.1 ∉ A)),
        (((cs.filter (fun kc => decide (kc.1 ∉ A) &&
            decide (condSepSet kc.2.cond ⊆ A))).map (fun kc => kc.2.marg) :
          List HFactor) : Multiset HFactor)) := by
  intro L
  induction L with
  | nil =>
    intro P cs R h _ hP _
    rw [elimRunP_nil] at h
    obtain ⟨h1, -⟩ := Prod.mk.injEq .. ▸ Option.some.inj h
    subst h1
    rw [List.filter_nil, elimRunP_nil]
    have hempty : P.filter (fun f => ¬ f.keys ⊆ A) = 0 :=
      Multiset.filter_eq_nil.mpr (fun f hf => not_not.mpr (by
        have : f.keys = ∅ := Finset.subset_empty.mp (by simpa using hP f hf)
        rw [this]; exact Finset.empty_subset _))
    rw [hempty]
    rfl
  | cons k L ih =>
    intro P cs R h hnd hP hclosed
    obtain ⟨cl, cs2, hcl, hrun, rfl⟩ := elimRunP_cons_inv h
    have hnd2 := List.nodup_cons.mp hnd
    have hpool := pool_step_subset hP hcl
    have hsepcl := condSepSet_elimKey hcl
    have hmk : cl.marg.keys = condSepSet cl.cond := by
      obtain ⟨-, -, -, hm, -⟩ := elimKey_shape hcl
      rw [hm, hsepcl]
    have hclosed2 : ∀ kc ∈ cs2, kc.1 ∈ A → condSepSet kc.2.cond ⊆ A :=
      fun kc hkc => hclosed kc (List.mem_cons_of_mem _ hkc)
    have htouch : ∀ f ∈ P, k ∈ f.keys → f.keys ⊆ insert k (condSepSet cl.cond) := by
      intro f hf hkf
      rw [hsepcl, Finset.subset_insert_iff]
      exact Finset.erase_subset_erase _
        (keys_subset_sum_keys _ f (Multiset.mem_filter.mpr ⟨hf, hkf⟩))
    by_cases hk : k ∈ A
    · have hsepA : condSepSet cl.cond ⊆ A :=
        hclosed (k, cl) (List.mem_cons_self _ _) hk
      have horder : (k :: L).filter (fun j => decide (j ∉ A)) =
          L.filter (fun j => decide (j ∉ A)) := by
        rw [List.filter_cons]
        simp [hk]
      have hpoolA : (P.filter (fun f => k ∉ f.keys) + {cl.marg}).filter
          (fun f => ¬ f.keys ⊆ A) = P.filter (fun f => ¬ f.keys ⊆ A) := by
        rw [Multiset.filter_add, Multiset.filter_singleton,
          if_neg (not_not.mpr (hmk ▸ hsepA)), Multiset.empty_eq_zero, add_zero,
          Multiset.filter_filter]
        refine Multiset.filter_congr ?_
        intro f hf
        constructor
        · exact fun h1 => h1.1
        · intro h1
          refine ⟨h1, fun hkf => h1 ?_⟩
          exact (htouch f hf hkf).trans (Finset.insert_subset hk hsepA)
      rw [horder, ← hpoolA, ih _ _ _ hrun hnd2.2 hpool hclosed2]
      have hcsf : ((k, cl) :: cs2).filter (fun kc => decide (kc.1 ∉ A)) =
          cs2.filter (fun kc => decide (kc.1 ∉ A)) := by
        rw [List.filter_cons]
        simp [hk]
      have hmgf : ((k, cl) :: cs2).filter (fun kc => decide (kc.1 ∉ A) &&
          decide (condSepSet kc.2.cond ⊆ A)) =
          cs2.filter (fun kc => decide (kc.1 ∉ A) &&
            decide (condSepSet kc.2.cond ⊆ A)) := by
        rw [List.filter_cons]
        simp [hk]
      rw [hcsf, hmgf]
    · have horder : (k :: L).filter (fun j => decide (j ∉ A)) =
          k :: L.filter (fun j => decide (j ∉ A)) := by
        rw [List.filter_cons]
        simp [hk]
      have htc : (P.filter (fun f => ¬ f.keys ⊆ A)).filter (fun f => k ∈ f.keys)
          = P.filter (fun f => k ∈ f.keys) := by
        rw [Multiset.filter_filter]
        refine Multiset.filter_congr ?_
        intro f hf
        constructor
        · exact fun h1 => h1.1
        · exact fun h2 => ⟨h2, fun hsubA => hk (hsubA h2)⟩
      have huc : (P.filter (fun f => ¬ f.keys ⊆ A)).filter (fun f => k ∉ f.keys)
          = (P.filter (fun f => k ∉ f.keys)).filter (fun f => ¬ f.keys ⊆ A) := by
        rw [Multiset.filter_filter, Multiset.filter_filter]
        exact Multiset.filter_congr (fun f _ => and_comm)
      have hIH := ih _ _ _ hrun hnd2.2 hpool hclosed2
      have hcsf : ((k, cl) :: cs2).filter (fun kc => decide (kc.1 ∉ A)) =
          (k, cl) :: cs2.filter (fun kc => decide (kc.1 ∉ A)) := by
        rw [List.filter_cons]
        simp [hk]
      by_cases hm : cl.marg.keys ⊆ A
      · have hpc2 : (P.filter (fun f => k ∉ f.keys) + {cl.marg}).filter
            (fun f => ¬ f.keys ⊆ A)
            = (P.filter (fun f => ¬ f.keys ⊆ A)).filter (fun f => k ∉ f.keys) := by
          rw [Multiset.filter_add, Multiset.filter_singleton,
            if_neg (not_not.mpr hm), Multiset.empty_eq_zero, add_zero, huc]
        rw [hpc2] at hIH
        rw [horder, elimRunP_cons_eq dims k _ _ (by rw [htc]; exact hcl),
          elimRunP_add_untouched dims _ _ {cl.marg}
            (fun f hf j hj => by
              rw [Multiset.mem_singleton.mp hf]
              intro hjk
              have hjA : j ∈ A := hm hjk
              have := List.of_mem_filter hj
              simp at this
              exact this hjA),
          hIH]
        have hmgf : ((k, cl) :: cs2).filter (fun kc => decide (kc.1 ∉ A) &&
            decide (condSepSet kc.2.cond ⊆ A)) =
            (k, cl) :: cs2.filter (fun kc => decide (kc.1 ∉ A) &&
              decide (condSepSet kc.2.cond ⊆ A)) := by
          rw [List.filter_cons]
          have : condSepSet cl.cond ⊆ A := hmk ▸ hm
          simp [hk, this]
        rw [hcsf, hmgf, List.map_cons]
        have hfin : ∀ (l : List HFactor) (m : HFactor),
            (l : Multiset HFactor) + {m} = ((m :: l : List HFactor) : Multiset HFactor) := by
          intro l m
          rw [add_comm, Multiset.singleton_add]
          rfl
        rw [← hfin]
        rfl
      · have hpc2 : (P.filter (fun f => k ∉ f.keys) + {cl.marg}).filter
            (fun f => ¬ f.keys ⊆ A)
            = (P.filter (fun f => ¬ f.keys ⊆ A)).filter (fun f => k ∉ f.keys)
              + {cl.marg} := by
          rw [Multiset.filter_add, Multiset.filter_singleton, if_pos hm, huc]
        rw [hpc2] at hIH
        rw [horder, elimRunP_cons_eq dims k _ _ (by rw [htc]; exact hcl), hIH]
        have hmgf : ((k, cl) :: cs2).filter (fun kc => decide (kc.1 ∉ A) &&
            decide (condSepSet kc.2.cond ⊆ A)) =
            cs2.filter (fun kc => decide (kc.1 ∉ A) &&
              decide (condSepSet kc.2.cond ⊆ A)) := by
          rw [List.filter_cons]
          have : ¬ condSepSet cl.cond ⊆ A := fun hc => hm (hmk ▸ hc)
          simp [this]
        rw [hcsf, hmgf]
        rfl

theorem good_struct {s : IState} (hG : Good s) :
    s.cliques.map Prod.fst = s.order ∧
    (∀ kc ∈ s.cliques, cliqueShapeOK (dimsOf s.theta) kc ∧
      condSepSet kc.2.cond ⊆ s.order.toFinset) ∧
    List.Pairwise (fun a b => a.1 ∉ condSepSet b.2.cond) s.cliques := by
  obtain ⟨hnd, hfwf, -, rest, hrun⟩ := hG
  have hpool : ∀ f ∈ ((liveLin s : List HFactor) : Multiset HFactor),
      f.keys ⊆ s.order.toFinset := by
    intro f hf
    rw [Multiset.mem_coe] at hf
    obtain ⟨g, hg, rfl⟩ := List.mem_map.mp hf
    rw [(hfwf g hg).1.2]
    exact (hfwf g hg).2
  obtain ⟨h1, h2, h3, -⟩ := run_struct _ _ _ _ _ hrun hnd hpool
  exact ⟨h1, h2, h3⟩

theorem good_batch_pool {s : IState} (hG : Good s) :
    ∀ f ∈ ((liveLin s : List HFactor) : Multiset HFactor), f.keys ⊆ s.order.toFinset := by
  intro f hf
  rw [Multiset.mem_coe] at hf
  obtain ⟨g, hg, rfl⟩ := List.mem_map.mp hf
  rw [((hG.2.1) g hg).1.2]
  exact ((hG.2.1) g hg).2

theorem affected_closed {s : IState} (hG : Good s) (u : UInput)
    (hdisj : ∀ k ∈ updNewKeys u, k ∉ s.order) :
    ∀ kc ∈ s.cliques, kc.1 ∈ affectedSetOf s u →
      condSepSet kc.2.cond ⊆ affectedSetOf s u := by
  obtain ⟨hmap, hshape, hpair⟩ := good_struct hG
  intro kc hkc hin
  have hkey : kc.1 ∈ s.order := hmap ▸ List.mem_map_of_mem Prod.fst hkc
  rw [affectedSetOf] at hin
  rcases Finset.mem_union.mp hin with hin | hin
  · have hclosed := closePass_closed (seedsOf s u) s.cliques ∅ ∅
      (by rw [hmap]; exact hG.1)
      (by intro x hx; exact absurd hx (Finset.not_mem_empty _))
      hpair
      (fun a ha => ((hshape a ha).1).2.2.2.2.2)
      (fun a ha => by rw [hmap] at *; exact (hshape a ha).2)
      kc hkc hin
    intro v hv
    exact Finset.mem_union_left _ (hclosed hv)
  · exact absurd hkey (hdisj kc.1 (List.mem_toFinset.mp hin))

theorem mem_foldr_union (S : Finset ℕ) :
    ∀ (l : List (Finset ℕ)), S ∈ l → S ⊆ l.foldr (· ∪ ·) ∅ := by
  intro l
  induction l with
  | nil => intro h; exact absurd h (List.not_mem_nil _)
  | cons a t ih =>
    intro h
    rcases List.mem_cons.mp h with rfl | h
    · exact Finset.subset_union_left
    · exact (ih h).trans Finset.subset_union_right

theorem getD_some_mem {fs : List (Option NLFactor)} {i : ℕ} {f : NLFactor}
    (h : fs.getD i none = some f) : some f ∈ fs := by
  by_cases hi : i < fs.length
  · rw [List.getD_eq_getElem _ _ hi] at h
    exact h ▸ List.getElem_mem hi
  · rw [List.getD_eq_default _ _ (Nat.le_of_not_lt hi)] at h
    exact absurd h (by simp)

theorem removedNL_live {s : IState} {u : UInput} (hval : updValid s u) :
    ∀ f ∈ removedNL s u, f ∈ liveFactors s := by
  intro f hf
  obtain ⟨i, hi, hgd⟩ := List.mem_filterMap.mp hf
  exact List.mem_filterMap.mpr ⟨some f, getD_some_mem hgd, rfl⟩

theorem newFactor_keys_sub_aset {s : IState} {u : UInput} (hG : Good s)
    (hval : updValid s u) :
    ∀ f ∈ u.newFactors, f.keys ⊆ affectedSetOf s u := by
  intro f hf v hv
  have hmem := hval.2.2.2.2 f hf hv
  rcases Finset.mem_union.mp hmem with horder | hnk
  · have hseed : v ∈ seedsOf s u := by
      rw [seedsOf]
      exact Finset.mem_union_left _ (Finset.mem_union_left _
        (mem_foldr_union _ _ (List.mem_map_of_mem NLFactor.keys hf) hv))
    obtain ⟨hmap, -, -⟩ := good_struct hG
    have : v ∈ s.cliques.map Prod.fst := by rw [hmap]; exact List.mem_toFinset.mp horder
    obtain ⟨kc, hkc, hfst⟩ := List.mem_map.mp this
    rw [affectedSetOf]
    exact Finset.mem_union_left _ (hfst ▸ closePass_seeds _ _ _ _ kc hkc (hfst ▸ hseed))
  · rw [affectedSetOf]
    exact Finset.mem_union_right _ hnk

theorem removed_keys_sub_aset {s : IState} {u : UInput} (hG : Good s)
    (hval : updValid s u) :
    ∀ f ∈ removedNL s u, f.keys ⊆ affectedSetOf s u := by
  intro f hf v hv
  have hseed : v ∈ seedsOf s u := by
    rw [seedsOf]
    exact Finset.mem_union_left _ (Finset.mem_union_right _
      (mem_foldr_union _ _ (List.mem_map_of_mem NLFactor.keys hf) hv))
  have horder : v ∈ s.order.toFinset := (hG.2.1 f (removedNL_live hval f hf)).2 hv
  obtain ⟨hmap, -, -⟩ := good_struct hG
  have : v ∈ s.cliques.map Prod.fst := by rw [hmap]; exact List.mem_toFinset.mp horder
  obtain ⟨kc, hkc, hfst⟩ := List.mem_map.mp this
  rw [affectedSetOf]
  exact Finset.mem_union_left _ (hfst ▸ closePass_seeds _ _ _ _ kc hkc (hfst ▸ hseed))

theorem maskFrom_filterMap_filter (rem : List ℕ) (p : NLFactor → Bool) :
    ∀ (fs : List (Option NLFactor)) (i : ℕ),
    (∀ j ∈ rem, j < i ∨ ∀ f, fs.getD (j - i) none = some f → p f = false) →
    ((maskFrom rem i fs).filterMap id).filter p = (fs.filterMap id).filter p := by
  intro fs
  induction fs with
  | nil => intro i _; rfl
  | cons fo fs ih =>
    intro i hrem
    have hshift : ∀ j ∈ rem, j < i + 1 ∨
        ∀ f, fs.getD (j - (i + 1)) none = some f → p f = false := by
      intro j hj
      rcases hrem j hj with hlt | hget
      · exact Or.inl (Nat.lt_succ_of_lt hlt)
      · rcases Nat.lt_or_ge j (i + 1) with hlt | hge
        · exact Or.inl hlt
        · refine Or.inr ?_
          intro f hgd
          refine hget f ?_
          have h1 : j - i = (j - (i + 1)) + 1 := by omega
          rw [h1]
          simpa using hgd
    rw [maskFrom]
    by_cases hi : i ∈ rem
    · rw [if_pos hi]
      have hp : ∀ f, fo = some f → p f = false := by
        intro f hfo
        rcases hrem i hi with hlt | hget
        · exact absurd hlt (Nat.lt_irrefl _)
        · exact hget f (by rw [Nat.sub_self]; simpa using hfo)
      cases fo with
      | none => simpa using ih (i + 1) hshift
      | some f =>
        have hpf := hp f rfl
        simp only [List.filterMap_cons, id_eq]
        rw [List.filter_cons]
        simp [hpf, ih (i + 1) hshift]
    · rw [if_neg hi]
      cases fo with
      | none => simpa using ih (i + 1) hshift
      | some f =>
        simp only [List.filterMap_cons, id_eq]
        rw [List.filter_cons, List.filter_cons]
        rw [ih (i + 1) hshift]

theorem filterMap_id_map_some (l : List NLFactor) :
    (l.map some).filterMap id = l := by
  induction l with
  | nil => rfl
  | cons a t ih => simp [ih]

theorem count_flatMap (a : ℕ) :
    ∀ (l : List ℕ) (f : ℕ → List ℕ),
    (l.flatMap f).count a = (l.map (fun x => (f x).count a)).sum := by
  intro l
  induction l with
  | nil => intro f; rfl
  | cons b t ih =>
    intro f
    rw [List.flatMap_cons, List.count_append, List.map_cons, List.sum_cons, ih]

theorem sum_ite_count (c : ℕ) (x : ℕ) :
    ∀ (l : List ℕ), l.Nodup → x ∈ l →
    (l.map (fun gr => if x = gr then c else 0)).sum = c := by
  intro l
  induction l with
  | nil => intro _ h; exact absurd h (List.not_mem_nil _)
  | cons b t ih =>
    intro hnd hx
    have hnd2 := List.nodup_cons.mp hnd
    rw [List.map_cons, List.sum_cons]
    rcases List.mem_cons.mp hx with rfl | hx
    · rw [if_pos rfl]
      have : (t.map (fun gr => if x = gr then c else 0)).sum = 0 := by
        refine List.sum_eq_zero ?_
        intro y hy
        obtain ⟨gr, hgr, rfl⟩ := List.mem_map.mp hy
        rw [if_neg]
        intro h
        exact hnd2.1 (h ▸ hgr)
      rw [this, add_zero]
    · rw [ih hnd2.2 hx, if_neg, zero_add]
      intro h
      exact hnd2.1 (h ▸ hx)

theorem bucketSort_perm (g : ℕ → ℕ) (keys : List ℕ) :
    (bucketSort g keys).Perm keys := by
  rw [List.perm_iff_count]
  intro a
  rw [bucketSort, count_flatMap]
  by_cases ha : a ∈ keys
  · have h1 : ∀ gr, (keys.filter (fun k => g k == gr)).count a =
        if g a = gr then keys.count a else 0 := by
      intro gr
      by_cases hg : g a = gr
      · rw [if_pos hg, List.count_filter (by simpa using hg)]
      · rw [if_neg hg, List.count_eq_zero]
        intro hmem
        have := List.of_mem_filter hmem
        exact hg (by simpa using this)
    have h2 : (finSort (keys.map g).toFinset).map
        (fun gr => (keys.filter (fun k => g k == gr)).count a) =
        (finSort (keys.map g).toFinset).map
        (fun gr => if g a = gr then keys.count a else 0) :=
      List.map_congr_left (fun gr _ => h1 gr)
    rw [h2, sum_ite_count _ _ _ (finSort_nodup _)
      ((mem_finSort _ _).mpr (List.mem_toFinset.mpr (List.mem_map_of_mem g ha)))]
  · rw [List.count_eq_zero.mpr ha]
    refine List.sum_eq_zero ?_
    intro y hy
    obtain ⟨gr, hgr, rfl⟩ := List.mem_map.mp hy
    rw [List.count_eq_zero]
    intro hmem
    exact ha (List.mem_of_mem_filter hmem)

theorem isamUpdate_inv {s : IState} {u : UInput} {s2 : IState} {r : URes}
    (h : isamUpdate s u = some (s2, r)) :
    updValid s u ∧ ∃ cs rest,
      elimRunP (dimsOf (updTheta s u)) (updAffOrder s u) (updPool s u) = some (cs, rest) ∧
      s2 = { factors := updFactors s u, theta := updTheta s u,
             order := updKept s u ++ updAffOrder s u,
             cliques := updKeptCliques s u ++ cs,
             delta := backSubst (updKeptCliques s u ++ cs) } ∧
      r = { newFactorsIndices := List.range' s.factors.length u.newFactors.length } := by
  rw [isamUpdate] at h
  split at h
  · split at h
    · exact absurd h (by simp)
    case _ pr hpr =>
      obtain ⟨h1, h2⟩ := Prod.mk.injEq .. ▸ Option.some.inj h
      exact ⟨by assumption, pr.1, pr.2, by rw [hpr], h1.symm, h2.symm⟩
  · exact absurd h (by simp)

theorem orphan_iff {s : IState} (hG : Good s) {A : Finset ℕ}
    (hclosed : ∀ kc ∈ s.cliques, kc.1 ∈ A → condSepSet kc.2.cond ⊆ A) :
    ∀ kc ∈ s.cliques,
    ((parentKey s.order kc.2.cond).any (fun p => decide (p ∈ A)) = true
      ↔ (condSepSet kc.2.cond ⊆ A ∧ condSepSet kc.2.cond ≠ ∅)) := by
  intro kc hkc
  obtain ⟨rest, hrun⟩ := hG.2.2.2
  have hpool := good_batch_pool hG
  obtain ⟨hmap, hshape, hpair⟩ := good_struct hG
  have hmargk : kc.2.marg.keys = condSepSet kc.2.cond := ((hshape kc hkc).1).2.2.2.2.1
  have hsub : condSepSet kc.2.cond ⊆ s.order.toFinset := (hshape kc hkc).2
  constructor
  · intro hany
    cases hpk : parentKey s.order kc.2.cond with
    | none => rw [hpk] at hany; exact absurd hany (by simp [Option.any])
    | some p =>
      rw [hpk] at hany
      have hpA : p ∈ A := by simpa using hany
      have hpred := List.find?_some hpk
      have hpsep : p ∈ condSepSet kc.2.cond := by simpa using hpred
      refine ⟨?_, fun hemp => by
        rw [hemp] at hpsep; exact absurd hpsep (Finset.not_mem_empty _)⟩
      rcases run_rip _ _ _ _ _ hrun hG.1 hpool kc hkc with
        ⟨q, cl2, hfind, hmem2, hsub2⟩ | hempty
      · have hfind2 : s.order.find? (fun j => decide (j ∈ kc.2.marg.keys)) = some p := by
          have heq : (fun j => decide (j ∈ kc.2.marg.keys)) =
              (fun j => decide (j ∈ condSepSet kc.2.cond)) :=
            funext (fun j => by rw [hmargk])
          rw [heq]
          exact hpk
        have hqp : q = p := Option.some.inj (by rw [← hfind, hfind2])
        have hmem3 : (p, cl2) ∈ s.cliques := by rw [← hqp]; exact hmem2
        have hsub3 : kc.2.marg.keys ⊆ insert p (condSepSet cl2.cond) := by
          rw [← hqp]; exact hsub2
        have hsepcl2 : condSepSet cl2.cond ⊆ A := hclosed (p, cl2) hmem3 hpA
        intro v hv
        rcases Finset.mem_insert.mp (hsub3 (hmargk ▸ hv)) with rfl | hv2
        · exact hpA
        · exact hsepcl2 hv2
      · rw [hmargk] at hempty
        rw [hempty] at hpsep
        exact absurd hpsep (Finset.not_mem_empty _)
  · rintro ⟨hsubA, hne⟩
    obtain ⟨v, hv⟩ := Finset.nonempty_iff_ne_empty.mpr hne
    have hvord : v ∈ s.order := List.mem_toFinset.mp (hsub hv)
    cases hpk : parentKey s.order kc.2.cond with
    | none =>
      have := List.find?_eq_none.mp hpk v hvord
      simp [hv] at this
    | some p =>
      have hpred := List.find?_some hpk
      have hpsep : p ∈ condSepSet kc.2.cond := by simpa using hpred
      simp [Option.any, hsubA hpsep]

theorem filter_split_margs (m : (ℕ × CliqueA) → HFactor) :
    ∀ (l : List (ℕ × CliqueA)) (b c d : (ℕ × CliqueA) → Bool),
    (∀ x ∈ l, b x = (c x || d x)) → (∀ x ∈ l, c x = true → d x = false) →
    (((l.filter b).map m : List HFactor) : Multiset HFactor)
      = ((l.filter c).map m : List HFactor) + (((l.filter d).map m : List HFactor) :
          Multiset HFactor) := by
  intro l
  induction l with
  | nil => intro b c d _ _; rfl
  | cons x t ih =>
    intro b c d hb hcd
    have ihx := ih b c d (fun y hy => hb y (List.mem_cons_of_mem _ hy))
      (fun y hy => hcd y (List.mem_cons_of_mem _ hy))
    cases hc : c x with
    | true =>
      have hd := hcd x (List.mem_cons_self _ _) hc
      have hbx : b x = true := by rw [hb x (List.mem_cons_self _ _), hc, hd]; rfl
      rw [List.filter_cons_of_pos hbx, List.filter_cons_of_pos hc,
        List.filter_cons_of_neg (by rw [hd]; exact Bool.false_ne_true)]
      rw [List.map_cons, ← Multiset.cons_coe, ihx, List.map_cons, ← Multiset.cons_coe,
        Multiset.cons_add]
    | false =>
      cases hd : d x with
      | true =>
        have hbx : b x = true := by rw [hb x (List.mem_cons_self _ _), hc, hd]; rfl
        rw [List.filter_cons_of_pos hbx,
          List.filter_cons_of_neg (by rw [hc]; exact Bool.false_ne_true),
          List.filter_cons_of_pos hd]
        rw [List.map_cons, ← Multiset.cons_coe, ihx, List.map_cons,
          ← Multiset.cons_coe, Multiset.add_cons]
      | false =>
        have hbx : b x = false := by rw [hb x (List.mem_cons_self _ _), hc, hd]; rfl
        rw [List.filter_cons_of_neg (by rw [hbx]; exact Bool.false_ne_true),
          List.filter_cons_of_neg (by rw [hc]; exact Bool.false_ne_true),
          List.filter_cons_of_neg (by rw [hd]; exact Bool.false_ne_true)]
        exact ihx

theorem maskFrom_mem (rem : List ℕ) :
    ∀ (fs : List (Option NLFactor)) (i : ℕ) (x : Option NLFactor),
    x ∈ maskFrom rem i fs → x = none ∨ x ∈ fs := by
  intro fs
  induction fs with
  | nil => intro i x h; exact absurd h (List.not_mem_nil _)
  | cons fo fs ih =>
    intro i x h
    rw [maskFrom] at h
    rcases List.mem_cons.mp h with rfl | h
    · by_cases hi : i ∈ rem
      · rw [if_pos hi]; exact Or.inl rfl
      · rw [if_neg hi]; exact Or.inr (List.mem_cons_self _ _)
    · rcases ih (i + 1) x h with h | h
      · exact Or.inl h
      · exact Or.inr (List.mem_cons_of_mem _ h)

theorem filter_map_congr {α β : Type} (g : α → β) (p : β → Bool) (q : α → Bool)
    (l : List α) (h : ∀ x ∈ l, p (g x) = q x) :
    (l.map g).filter p = (l.filter q).map g := by
  rw [List.filter_map]
  congr 1
  exact List.filter_congr (fun x hx => by
    simp only [Function.comp]
    exact h x hx)

theorem simres_split {s : IState} (hG : Good s) (u : UInput)
    (hdisj : ∀ k ∈ updNewKeys u, k ∉ s.order) :
    (((s.cliques.filter (fun kc => decide (kc.1 ∉ affectedSetOf s u) &&
        decide (condSepSet kc.2.cond ⊆ affectedSetOf s u))).map (fun kc => kc.2.marg) :
      List HFactor) : Multiset HFactor)
    = ((orphanMargsOf s (affectedSetOf s u) : List HFactor) : Multiset HFactor)
      + (((s.cliques.filter (fun kc => decide (kc.1 ∉ affectedSetOf s u) &&
          decide (condSepSet kc.2.cond = ∅))).map (fun kc => kc.2.marg) :
        List HFactor) : Multiset HFactor) := by
  have hoiff := orphan_iff hG (affected_closed hG u hdisj)
  rw [orphanMargsOf]
  refine filter_split_margs _ s.cliques _ _ _ ?_ ?_
  · intro kc hkc
    by_cases h1 : kc.1 ∈ affectedSetOf s u
    · simp [h1]
    · by_cases h3 : condSepSet kc.2.cond = ∅
      · have hany : (parentKey s.order kc.2.cond).any
            (fun p => decide (p ∈ affectedSetOf s u)) = false := by
          have hnone : parentKey s.order kc.2.cond = none :=
            List.find?_eq_none.mpr (fun x _ => by simp [h3])
          rw [hnone]
          rfl
        have h2 : condSepSet kc.2.cond ⊆ affectedSetOf s u := by
          rw [h3]; exact Finset.empty_subset _
        simp [h1, h2, h3, hany]
      · by_cases h2 : condSepSet kc.2.cond ⊆ affectedSetOf s u
        · have hany := (hoiff kc hkc).mpr ⟨h2, h3⟩
          simp [h1, h2, h3, hany]
        · have hany : (parentKey s.order kc.2.cond).any
              (fun p => decide (p ∈ affectedSetOf s u)) = false := by
            cases hval : (parentKey s.order kc.2.cond).any
                (fun p => decide (p ∈ affectedSetOf s u)) with
            | false => rfl
            | true => exact absurd ((hoiff kc hkc).mp hval).1 h2
          simp [h1, h2, h3, hany]
  · intro kc hkc hc
    have hany : (parentKey s.order kc.2.cond).any
        (fun p => decide (p ∈ affectedSetOf s u)) = true := by
      rcases Bool.and_eq_true .. |>.mp hc with ⟨-, h⟩
      exact h
    have hne := ((hoiff kc hkc).mp hany).2
    simp [hne]

theorem batch_preserved {s : IState} {u : UInput} (hG : Good s) (hWF : WFInput u)
    (hval : updValid s u) {cs : List (ℕ × CliqueA)} {rest : Multiset HFactor}
    (hrunU : elimRunP (dimsOf (updTheta s u)) (updAffOrder s u) (updPool s u) =
      some (cs, rest)) :
    ∃ rest2, batchRun (updState s u cs) = some (updKeptCliques s u ++ cs, rest2) := by
  have hdisj : ∀ k ∈ updNewKeys u, k ∉ s.order := hval.2.2.2.1
  have hclosedA := affected_closed hG u hdisj
  obtain ⟨restOld, hrunOld⟩ := hG.2.2.2
  have hpoolOld := good_batch_pool hG
  have hfwf := hG.2.1
  -- notation
  set A := affectedSetOf s u with hA
  set th2 := updTheta s u with hth2
  set d2 := dimsOf th2 with hd2
  set ML := (maskFrom u.removeIndices 0 s.factors).filterMap id with hML
  -- live factors of the new state
  have hlive2 : liveFactors (updState s u cs) = ML ++ u.newFactors := by
    show (updFactors s u).filterMap id = ML ++ u.newFactors
    rw [updFactors, List.filterMap_append, filterMap_id_map_some, hML]
  have hMLmem : ∀ f ∈ ML, f ∈ liveFactors s := by
    intro f hf
    obtain ⟨x, hx, hid⟩ := List.mem_filterMap.mp hf
    rcases maskFrom_mem _ _ _ x hx with rfl | hx2
    · exact absurd hid (by simp)
    · exact List.mem_filterMap.mpr ⟨x, hx2, hid⟩
  have hthagree : ∀ f ∈ liveFactors s, f.lin th2 = f.lin s.theta := by
    intro f hf
    refine (hfwf f hf).1.1 th2 s.theta ?_
    intro k hk
    have hkord : k ∈ s.order := List.mem_toFinset.mp ((hfwf f hf).2 hk)
    have hknk : k ∉ updNewKeys u := fun hknk => hdisj k hknk hkord
    rw [hth2, updTheta, if_neg hknk]
  have hnewsub : ∀ f ∈ u.newFactors, f.keys ⊆ A := newFactor_keys_sub_aset hG hval
  -- the two halves of the masked live part under the affected filter
  have hMLneg : ((ML.map (fun f => f.lin th2)).filter (fun f => decide (¬ f.keys ⊆ A)))
      = ((liveFactors s).filter (fun f => decide (¬ f.keys ⊆ A))).map
        (fun f => f.lin s.theta) := by
    rw [filter_map_congr _ _ (fun f => decide (¬ f.keys ⊆ A)) _
      (fun f hf => by rw [(hfwf f (hMLmem f hf)).1.2 th2])]
    have hmask : ML.filter (fun f => decide (¬ f.keys ⊆ A))
        = (liveFactors s).filter (fun f => decide (¬ f.keys ⊆ A)) := by
      rw [hML]
      refine maskFrom_filterMap_filter u.removeIndices _ s.factors 0 ?_
      intro j hj
      refine Or.inr ?_
      intro f hgd
      rw [Nat.sub_zero] at hgd
      have hfrem : f ∈ removedNL s u :=
        List.mem_filterMap.mpr ⟨j, hj, hgd⟩
      have hsubA : f.keys ⊆ A := removed_keys_sub_aset hG hval f hfrem
      simp [hsubA]
    rw [hmask]
    refine List.map_congr_left ?_
    intro f hf
    exact hthagree f (List.mem_of_mem_filter hf)
  have hMLpos : ((ML.map (fun f => f.lin th2)).filter (fun f => decide (f.keys ⊆ A)))
      = (ML.filter (fun f => decide (f.keys ⊆ A))).map (fun f => f.lin th2) := by
    rw [filter_map_congr _ _ (fun f => decide (f.keys ⊆ A)) _
      (fun f hf => by rw [(hfwf f (hMLmem f hf)).1.2 th2])]
  -- multiset split of the new batch pool
  have hliveLin2 : liveLin (updState s u cs)
      = ML.map (fun f => f.lin th2) ++ u.newFactors.map (fun f => f.lin th2) := by
    rw [liveLin, hlive2, List.map_append]
    rfl
  -- the unaffected part of the pool equals the old unaffected part
  have hU : Multiset.filter (fun f => ¬ f.keys ⊆ A)
      ((ML.map (fun f => f.lin th2) ++ u.newFactors.map (fun f => f.lin th2) :
        List HFactor) : Multiset HFactor)
      = Multiset.filter (fun f => ¬ f.keys ⊆ A)
          ((liveLin s : List HFactor) : Multiset HFactor) := by
    rw [show ((ML.map (fun f => f.lin th2) ++ u.newFactors.map (fun f => f.lin th2) :
        List HFactor) : Multiset HFactor)
      = ((ML.map (fun f => f.lin th2) : List HFactor) : Multiset HFactor)
        + ((u.newFactors.map (fun f => f.lin th2) : List HFactor) : Multiset HFactor)
      from rfl]
    rw [Multiset.filter_add]
    have hnews0 : Multiset.filter (fun f => ¬ f.keys ⊆ A)
        ((u.newFactors.map (fun f => f.lin th2) : List HFactor) : Multiset HFactor)
        = 0 := by
      refine Multiset.filter_eq_nil.mpr ?_
      intro f hf
      rw [Multiset.mem_coe] at hf
      obtain ⟨g, hg, rfl⟩ := List.mem_map.mp hf
      rw [not_not, (hWF g hg).2 th2]
      exact hnewsub g hg
    rw [hnews0, add_zero, Multiset.filter_coe, Multiset.filter_coe, hMLneg]
    congr 1
    exact (filter_map_congr (fun f => f.lin s.theta) (fun b => decide (¬ b.keys ⊆ A))
      (fun f => decide (¬ f.keys ⊆ A)) (liveFactors s)
      (fun f hf => by simp only [(hfwf f hf).1.2 s.theta])).symm
  -- the affected part of the pool equals the update's affected factor pool
  have hFa : Multiset.filter (fun f => f.keys ⊆ A)
      ((ML.map (fun f => f.lin th2) ++ u.newFactors.map (fun f => f.lin th2) :
        List HFactor) : Multiset HFactor)
      = ((((updFactors s u).filterMap id).filter (fun f => decide (f.keys ⊆ A))).map
          (fun f => f.lin th2) : List HFactor) := by
    rw [show ((updFactors s u).filterMap id) = ML ++ u.newFactors from hlive2]
    rw [List.filter_append,
      show u.newFactors.filter (fun f => decide (f.keys ⊆ A)) = u.newFactors from
        List.filter_eq_self.mpr (fun f hf => by simp [hnewsub f hf]),
      List.map_append]
    rw [show ((ML.map (fun f => f.lin th2) ++ u.newFactors.map (fun f => f.lin th2) :
        List HFactor) : Multiset HFactor)
      = ((ML.map (fun f => f.lin th2) : List HFactor) : Multiset HFactor)
        + ((u.newFactors.map (fun f => f.lin th2) : List HFactor) : Multiset HFactor)
      from rfl]
    rw [Multiset.filter_add]
    have hnews1 : Multiset.filter (fun f => f.keys ⊆ A)
        ((u.newFactors.map (fun f => f.lin th2) : List HFactor) : Multiset HFactor)
        = ((u.newFactors.map (fun f => f.lin th2) : List HFactor) : Multiset HFactor) := by
      refine Multiset.filter_eq_self.mpr ?_
      intro f hf
      rw [Multiset.mem_coe] at hf
      obtain ⟨g, hg, rfl⟩ := List.mem_map.mp hf
      rw [(hWF g hg).2 th2]
      exact hnewsub g hg
    rw [hnews1, Multiset.filter_coe, hMLpos]
    rfl
  -- SIM on the old run
  have hsim := sim_extract (dimsOf s.theta) A s.order
    ((liveLin s : List HFactor) : Multiset HFactor) s.cliques restOld hrunOld hG.1
    hpoolOld hclosedA
  -- stage 1 equals the kept cliques
  have hkeptdims : ∀ j ∈ updKept s u, d2 j = dimsOf s.theta j := by
    intro j hj
    have hjord : j ∈ s.order := List.mem_of_mem_filter hj
    have hjnk : j ∉ updNewKeys u := fun h => hdisj j h hjord
    rw [hd2, hth2, dimsOf, dimsOf, updTheta, if_neg hjnk]
  have hUdims : ∀ f ∈ Multiset.filter (fun f => ¬ f.keys ⊆ A)
      ((liveLin s : List HFactor) : Multiset HFactor),
      ∀ v ∈ f.keys, d2 v = dimsOf s.theta v := by
    intro f hf v hv
    have hford := hpoolOld f (Multiset.mem_of_mem_filter hf) hv
    have hvord : v ∈ s.order := List.mem_toFinset.mp hford
    have hvnk : v ∉ updNewKeys u := fun h => hdisj v h hvord
    rw [hd2, hth2, dimsOf, dimsOf, updTheta, if_neg hvnk]
  have hstage1 : elimRunP d2 (updKept s u)
      ((ML.map (fun f => f.lin th2) ++ u.newFactors.map (fun f => f.lin th2) :
        List HFactor) : Multiset HFactor)
      = some (updKeptCliques s u,
          (((s.cliques.filter (fun kc => decide (kc.1 ∉ A) &&
              decide (condSepSet kc.2.cond ⊆ A))).map (fun kc => kc.2.marg) :
            List HFactor) : Multiset HFactor)
          + Multiset.filter (fun f => f.keys ⊆ A)
              ((ML.map (fun f => f.lin th2) ++ u.newFactors.map (fun f => f.lin th2) :
                List HFactor) : Multiset HFactor)) := by
    conv_lhs => rw [show ((ML.map (fun f => f.lin th2) ++ u.newFactors.map
          (fun f => f.lin th2) : List HFactor) : Multiset HFactor)
      = Multiset.filter (fun f => ¬ f.keys ⊆ A)
          ((ML.map (fun f => f.lin th2) ++ u.newFactors.map (fun f => f.lin th2) :
            List HFactor) : Multiset HFactor)
        + Multiset.filter (fun f => f.keys ⊆ A)
          ((ML.map (fun f => f.lin th2) ++ u.newFactors.map (fun f => f.lin th2) :
            List HFactor) : Multiset HFactor) from by
        rw [add_comm, Multiset.filter_add_not]]
    rw [elimRunP_add_untouched d2 _ _ _
      (fun f hf j hj hjf => by
        have hfA : f.keys ⊆ A := (Multiset.mem_filter.mp hf).2
        have hjA := hfA hjf
        have := List.of_mem_filter hj
        simp only [decide_eq_true_eq] at this
        exact this hjA)]
    rw [hU]
    rw [elimRunP_congr d2 (dimsOf s.theta) _ _ hkeptdims hUdims]
    rw [show updKept s u = s.order.filter (fun j => decide (j ∉ A)) from rfl]
    rw [hsim, Option.map_some']
    rfl
  -- stage 2: the affected re-elimination, with the inert empty-key residue
  have hsplit2 := simres_split hG u hdisj
  have hE : ∀ f ∈ (((s.cliques.filter (fun kc => decide (kc.1 ∉ A) &&
      decide (condSepSet kc.2.cond = ∅))).map (fun kc => kc.2.marg) :
        List HFactor) : Multiset HFactor), f.keys = ∅ := by
    intro f hf
    rw [Multiset.mem_coe] at hf
    obtain ⟨kc, hkc, rfl⟩ := List.mem_map.mp hf
    have hkcm := List.mem_of_mem_filter hkc
    have hcond := List.of_mem_filter hkc
    rcases Bool.and_eq_true .. |>.mp hcond with ⟨-, hempty⟩
    obtain ⟨-, hshape, -⟩ := good_struct hG
    have hmargk := ((hshape kc hkcm).1).2.2.2.2.1
    rw [hmargk]
    simpa using hempty
  have hstage2 : elimRunP d2 (updAffOrder s u)
      ((((s.cliques.filter (fun kc => decide (kc.1 ∉ A) &&
          decide (condSepSet kc.2.cond ⊆ A))).map (fun kc => kc.2.marg) :
        List HFactor) : Multiset HFactor)
      + Multiset.filter (fun f => f.keys ⊆ A)
          ((ML.map (fun f => f.lin th2) ++ u.newFactors.map (fun f => f.lin th2) :
            List HFactor) : Multiset HFactor))
      = some (cs, rest + (((s.cliques.filter (fun kc => decide (kc.1 ∉ A) &&
          decide (condSepSet kc.2.cond = ∅))).map (fun kc => kc.2.marg) :
            List HFactor) : Multiset HFactor)) := by
    rw [hsplit2, hFa]
    rw [show ((orphanMargsOf s A : List HFactor) : Multiset HFactor)
        + (((s.cliques.filter (fun kc => decide (kc.1 ∉ A) &&
            decide (condSepSet kc.2.cond = ∅))).map (fun kc => kc.2.marg) :
          List HFactor) : Multiset HFactor)
        + ((((updFactors s u).filterMap id).filter
            (fun f => decide (f.keys ⊆ A))).map (fun f => f.lin th2) : List HFactor)
      = updPool s u
        + (((s.cliques.filter (fun kc => decide (kc.1 ∉ A) &&
            decide (condSepSet kc.2.cond = ∅))).map (fun kc => kc.2.marg) :
          List HFactor) : Multiset HFactor) from by
        rw [updPool, ← hth2, ← hA]
        abel]
    rw [elimRunP_add_untouched d2 _ _ _ (fun f hf j hj hjf => by
      rw [hE f hf] at hjf
      exact absurd hjf (Finset.not_mem_empty _))]
    rw [hrunU]
    rfl
  refine ⟨rest + (((s.cliques.filter (fun kc => decide (kc.1 ∉ A) &&
      decide (condSepSet kc.2.cond = ∅))).map (fun kc => kc.2.marg) :
        List HFactor) : Multiset HFactor), ?_⟩
  show elimRunP d2 (updKept s u ++ updAffOrder s u)
      ((liveLin (updState s u cs) : List HFactor) : Multiset HFactor) = _
  rw [hliveLin2, elimRunP_append, hstage1]
  dsimp only
  rw [hstage2]

theorem liveFactors_updState (s : IState) (u : UInput) (cs : List (ℕ × CliqueA)) :
    liveFactors (updState s u cs)
      = (maskFrom u.removeIndices 0 s.factors).filterMap id ++ u.newFactors := by
  show (updFactors s u).filterMap id = _
  rw [updFactors, List.filterMap_append, filterMap_id_map_some]

theorem mem_updOrder {s : IState} {u : UInput} (k : ℕ) :
    k ∈ s.order ∨ k ∈ updNewKeys u → k ∈ updKept s u ++ updAffOrder s u := by
  intro hk
  rw [List.mem_append]
  by_cases hA : k ∈ affectedSetOf s u
  · right
    refine (bucketSort_perm u.groups _).mem_iff.mpr ?_
    rw [List.mem_append]
    rcases hk with hk | hk
    · exact Or.inl (List.mem_filter.mpr ⟨hk, by simpa using hA⟩)
    · exact Or.inr hk
  · left
    rcases hk with hk | hk
    · exact List.mem_filter.mpr ⟨hk, by simpa using hA⟩
    · exact absurd (Finset.mem_union_right _ (List.mem_toFinset.mpr hk)) hA

theorem updOrder_nodup {s : IState} {u : UInput} (hG : Good s) (hval : updValid s u) :
    (updKept s u ++ updAffOrder s u).Nodup := by
  have hnk : (updNewKeys u).Nodup := hval.2.2.1
  have hdisj : ∀ k ∈ updNewKeys u, k ∉ s.order := hval.2.2.2.1
  have haffnd : (updAffOrder s u).Nodup := by
    refine (bucketSort_perm u.groups _).nodup_iff.mpr ?_
    refine List.Nodup.append (hG.1.filter _) hnk ?_
    intro k hk1 hk2
    exact hdisj k hk2 (List.mem_of_mem_filter hk1)
  refine List.Nodup.append (hG.1.filter _) haffnd ?_
  intro k hk1 hk2
  have hkA : k ∉ affectedSetOf s u := by
    have := List.of_mem_filter hk1
    simpa using this
  have hk3 := (bucketSort_perm u.groups _).mem_iff.mp hk2
  rcases List.mem_append.mp hk3 with h | h
  · exact hkA (by simpa using List.of_mem_filter h)
  · exact hkA (Finset.mem_union_right _ (List.mem_toFinset.mpr h))

theorem good_step {s : IState} {u : UInput} {s2 : IState} {r : URes}
    (hG : Good s) (hWF : WFInput u) (h : isamUpdate s u = some (s2, r)) :
    Good s2 := by
  obtain ⟨hval, cs, rest, hrun, hs2, -⟩ := isamUpdate_inv h
  have hs2u : s2 = updState s u cs := hs2
  subst hs2u
  obtain ⟨rest2, hbatch⟩ := batch_preserved hG hWF hval hrun
  refine ⟨updOrder_nodup hG hval, ?_, rfl, ⟨rest2, hbatch⟩⟩
  intro f hf
  rw [liveFactors_updState] at hf
  rcases List.mem_append.mp hf with hf | hf
  · have hfl : f ∈ liveFactors s := by
      obtain ⟨x, hx, hid⟩ := List.mem_filterMap.mp hf
      rcases maskFrom_mem _ _ _ x hx with rfl | hx2
      · exact absurd hid (by simp)
      · exact List.mem_filterMap.mpr ⟨x, hx2, hid⟩
    refine ⟨(hG.2.1 f hfl).1, ?_⟩
    intro k hk
    have hkord : k ∈ s.order := List.mem_toFinset.mp ((hG.2.1 f hfl).2 hk)
    exact List.mem_toFinset.mpr (mem_updOrder k (Or.inl hkord))
  · refine ⟨hWF f hf, ?_⟩
    intro k hk
    have hk2 := hval.2.2.2.2 f hf hk
    rcases Finset.mem_union.mp hk2 with h2 | h2
    · exact List.mem_toFinset.mpr (mem_updOrder k (Or.inl (List.mem_toFinset.mp h2)))
    · exact List.mem_toFinset.mpr (mem_updOrder k (Or.inr (List.mem_toFinset.mp h2)))

theorem good_init : Good initISAM2 :=
  ⟨List.nodup_nil, fun f hf => absurd hf (List.not_mem_nil f), rfl, ⟨0, rfl⟩⟩

theorem good_reach : ∀ (us : List UInput) (s s2 : IState), Good s → WFInputs us →
    applyUpdates s us = some s2 → Good s2 := by
  intro us
  induction us with
  | nil =>
    intro s s2 hG _ h
    obtain rfl := Option.some.inj h
    exact hG
  | cons u us ih =>
    intro s s2 hG hWFs h
    cases hiu : isamUpdate s u with
    | none =>
      rw [applyUpdates, hiu] at h
      exact absurd h (by simp)
    | some pr =>
      rw [applyUpdates, hiu] at h
      exact ih pr.1 s2 (good_step hG (hWFs u (List.mem_cons_self _ _)) (by rw [hiu]))
        (fun v hv => hWFs v (List.mem_cons_of_mem _ hv)) h

theorem good_estimate {s : IState} (hG : Good s) :
    calculateEstimate s = batchEstimate s := by
  obtain ⟨-, -, hdelta, rest, hrun⟩ := hG
  funext k
  show vecAdd (s.theta k) (s.delta k) = vecAdd (s.theta k) (batchDelta s k)
  have hbd : batchDelta s = backSubst s.cliques := by
    rw [batchDelta, hrun]
  rw [hbd, hdelta]

theorem constNL_wf (h : HFactor) : NLWF (constNL h) :=
  ⟨fun _ _ _ => rfl, fun _ => rfl⟩

theorem wf_updA : WFInput updA := by
  intro f hf
  simp only [updA, List.mem_cons, List.not_mem_nil, or_false] at hf
  subst hf
  exact constNL_wf _

theorem wf_updB : WFInput updB := by
  intro f hf
  simp only [updB, List.mem_cons, List.not_mem_nil, or_false] at hf
  subst hf
  exact constNL_wf _

theorem wf_updC : WFInput updC := by
  intro f hf
  simp only [updC, List.mem_cons, List.not_mem_nil, or_false] at hf
  rcases hf with rfl | rfl | rfl <;> exact constNL_wf _

theorem wf_updD : WFInput updD := by
  intro f hf
  simp only [updD, List.mem_cons, List.not_mem_nil, or_false] at hf
  subst hf
  exact constNL_wf _

theorem wf_updE : WFInput updE := by
  intro f hf
  simp only [updE, List.not_mem_nil] at hf

theorem wfs_scenarioAB : WFInputs [updA, updB] := by
  intro u hu
  simp only [List.mem_cons, List.not_mem_nil, or_false] at hu
  rcases hu with rfl | rfl
  · exact wf_updA
  · exact wf_updB

theorem wfs_scenarioABC : WFInputs [updA, updB, updC] := by
  intro u hu
  simp only [List.mem_cons, List.not_mem_nil, or_false] at hu
  rcases hu with rfl | rfl | rfl
  · exact wf_updA
  · exact wf_updB
  · exact wf_updC

theorem maskFrom_length (rem : List ℕ) :
    ∀ (fs : List (Option NLFactor)) (i : ℕ), (maskFrom rem i fs).length = fs.length := by
  intro fs
  induction fs with
  | nil => intro i; rfl
  | cons fo fs ih =>
    intro i
    rw [maskFrom]
    simp [ih]

theorem range'_getD : ∀ (n base k : ℕ), k < n →
    (List.range' base n).getD k 0 = base + k := by
  intro n
  induction n with
  | zero => intro base k h; exact absurd h (Nat.not_lt_zero k)
  | succ n ih =>
    intro base k h
    rw [List.range'_succ]
    cases k with
    | zero => simp
    | succ k =>
      rw [List.getD_cons_succ, ih (base + 1) k (Nat.lt_of_succ_lt_succ h)]
      omega

theorem maskFrom_single : ∀ (fs : List (Option NLFactor)) (i j : ℕ),
    maskFrom [j] i fs = if j < i then fs else fs.set (j - i) none := by
  intro fs
  induction fs with
  | nil =>
    intro i j
    rw [maskFrom]
    split <;> rfl
  | cons fo fs ih =>
    intro i j
    rw [maskFrom]
    by_cases hij : i = j
    · subst hij
      rw [if_pos (by simp), if_neg (lt_irrefl i), Nat.sub_self,
        ih (i + 1) i, if_pos (Nat.lt_succ_self i)]
      rfl
    · rw [if_neg (by simp [hij]), ih (i + 1) j]
      by_cases hj : j < i
      · rw [if_pos hj, if_pos (Nat.lt_succ_of_lt hj)]
      · rw [if_neg hj, if_neg (by omega)]
        have hji : j - i = (j - (i + 1)) + 1 := by omega
        rw [hji]
        rfl

theorem factors_reach : ∀ (us : List UInput) (s0 s : IState),
    applyUpdates s0 us = some s →
    s.factors = us.foldl
      (fun acc u => maskFrom u.removeIndices 0 acc ++ u.newFactors.map some)
      s0.factors := by
  intro us
  induction us with
  | nil =>
    intro s0 s h
    obtain rfl := Option.some.inj h
    rfl
  | cons u us ih =>
    intro s0 s h
    cases hiu : isamUpdate s0 u with
    | none =>
      rw [applyUpdates, hiu] at h
      exact absurd h (by simp)
    | some pr =>
      rw [applyUpdates, hiu] at h
      have h2 := ih pr.1 s h
      obtain ⟨-, cs, rest, -, hs2, -⟩ :=
        isamUpdate_inv (show isamUpdate s0 u = some (pr.1, pr.2) from by rw [hiu])
      have hfac : pr.1.factors
          = maskFrom u.removeIndices 0 s0.factors ++ u.newFactors.map some := by
        rw [hs2]
        rfl
      rw [List.foldl_cons, ← hfac]
      exact h2

theorem factors_accum {us : List UInput} {s : IState}
    (h : applyUpdates initISAM2 us = some s) : s.factors = accumFactors us :=
  factors_reach us initISAM2 s h

mutual
theorem btPermute_strip (p : ℕ → ℕ) : ∀ t : BTree, btStrip (btPermute p t) = btStrip t
  | BTree.node ck fk ch => by
    simp only [btPermute, btStrip, bfPermute_strip p ch]
theorem bfPermute_strip (p : ℕ → ℕ) : ∀ f : BForest, bfStrip (bfPermute p f) = bfStrip f
  | BForest.nil => rfl
  | BForest.cons t f => by
    simp only [bfPermute, bfStrip, btPermute_strip p t, bfPermute_strip p f]
end

mutual
theorem btPermute_count (p : ℕ → ℕ) : ∀ t : BTree, btCount (btPermute p t) = btCount t
  | BTree.node ck fk ch => by
    simp only [btPermute, btCount, bfPermute_count p ch]
theorem bfPermute_count (p : ℕ → ℕ) : ∀ f : BForest, bfCount (bfPermute p f) = bfCount f
  | BForest.nil => rfl
  | BForest.cons t f => by
    simp only [bfPermute, bfCount, btPermute_count p t, bfPermute_count p f]
end

mutual
theorem btPermute_condKeys (p : ℕ → ℕ) :
    ∀ t : BTree, btCondKeys (btPermute p t) = (btCondKeys t).map p
  | BTree.node ck fk ch => by
    simp only [btPermute, btCondKeys, bfPermute_condKeys p ch, List.map_append]
theorem bfPermute_condKeys (p : ℕ → ℕ) :
    ∀ f : BForest, bfCondKeys (bfPermute p f) = (bfCondKeys f).map p
  | BForest.nil => rfl
  | BForest.cons t f => by
    simp only [bfPermute, bfCondKeys, btPermute_condKeys p t, bfPermute_condKeys p f,
      List.map_append]
end

mutual
theorem btPermute_cachedKeys (p : ℕ → ℕ) :
    ∀ t : BTree, btCachedKeys (btPermute p t) = (btCachedKeys t).map p
  | BTree.node ck fk ch => by
    simp only [btPermute, btCachedKeys, bfPermute_cachedKeys p ch, List.map_append]
theorem bfPermute_cachedKeys (p : ℕ → ℕ) :
    ∀ f : BForest, bfCachedKeys (bfPermute p f) = (bfCachedKeys f).map p
  | BForest.nil => rfl
  | BForest.cons t f => by
    simp only [bfPermute, bfCachedKeys, btPermute_cachedKeys p t, bfPermute_cachedKeys p f,
      List.map_append]
end

/-- C4: applying the permutation that remaps variable index 2 to 1 (identity
elsewhere) via permuteWithInverse on a (root) clique relabels every index
embedded in the tree — all conditional keys and all cached separator factor
keys are mapped through the permutation — while the structural shape
(parent/child relationships and number of cliques) is unchanged. -/
theorem permute_cached_relabels_indices (t : BTree) :
    btStrip (btPermute permTwoToOne t) = btStrip t ∧
    btCount (btPermute permTwoToOne t) = btCount t ∧
    btCondKeys (btPermute permTwoToOne t) = (btCondKeys t).map permTwoToOne ∧
    btCachedKeys (btPermute permTwoToOne t) = (btCachedKeys t).map permTwoToOne :=
  ⟨btPermute_strip _ t, btPermute_count _ t, btPermute_condKeys _ t,
    btPermute_cachedKeys _ t⟩

theorem extendDelta_props (d : PermutedVV) (ds : List ℕ) :
    deltaExtendedBy d (extendDelta d ds) ds := by
  refine ⟨?_, ?_, ?_, ?_, ?_, ?_⟩
  · intro i hi
    exact List.getD_append _ _ _ _ hi
  · intro i hi
    exact List.getD_append _ _ _ _ hi
  · intro j hj
    rw [extendDelta, List.getD_append_right _ _ _ _ (Nat.le_add_right _ _),
      Nat.add_sub_cancel_left]
    have hj2 : j < (ds.map (fun n => List.replicate n (0:ℚ))).length := by
      simpa using hj
    rw [List.getD_eq_getElem _ _ hj2, List.getElem_map,
      List.getD_eq_getElem _ _ hj]
  · intro j hj
    rw [extendDelta, List.getD_append_right _ _ _ _ (Nat.le_add_right _ _),
      Nat.add_sub_cancel_left]
    have hj2 : j < (List.range' d.perm.length ds.length).length := by
      simpa using hj
    rw [List.getD_eq_getElem _ _ hj2, List.getElem_range']
    ring
  · simp [extendDelta]
  · simp [extendDelta]

/-- C8: AddVariables appends the new keys with new trailing indices to the
ordering and extends every parallel delta container (accepted delta,
Gauss-Newton scratch delta, steepest-descent scratch delta) with
zero-initialized slots of the correct per-variable local dimension, extending
each permutation with the identity on the new trailing slots; all pre-existing
ordering entries, delta entries, and permutation mappings are unchanged, and
the relinearization flags are extended with false. -/
theorem addVariables_extends_state (s : VarState) (newTheta : List (ℕ × List ℚ)) :
    deltaExtendedBy s.delta (addVariables newTheta s).delta
      (newTheta.map (fun kv => kv.2.length)) ∧
    deltaExtendedBy s.deltaNewton (addVariables newTheta s).deltaNewton
      (newTheta.map (fun kv => kv.2.length)) ∧
    deltaExtendedBy s.deltaRg (addVariables newTheta s).deltaRg
      (newTheta.map (fun kv => kv.2.length)) ∧
    (addVariables newTheta s).ordering = s.ordering ++ newTheta.map Prod.fst ∧
    (∀ i, i < s.ordering.length →
      (addVariables newTheta s).ordering.getD i 0 = s.ordering.getD i 0) ∧
    (addVariables newTheta s).theta = s.theta ++ newTheta ∧
    (addVariables newTheta s).replacedKeys =
      s.replacedKeys ++ List.replicate newTheta.length false := by
  refine ⟨extendDelta_props _ _, extendDelta_props _ _, extendDelta_props _ _,
    rfl, ?_, rfl, rfl⟩
  intro i hi
  exact List.getD_append _ _ _ _ hi


theorem getD_zero_mem {α : Type} (l : List α) (d : α) (h : l ≠ []) :
    l.getD 0 d ∈ l := by
  cases l with
  | nil => exact absurd rfl h
  | cons a l => exact List.mem_cons_self _ _

theorem gradContribOf_length (c : GCond) :
    (gradContribOf c).length = dimTotal (varsWithDims c) := by
  rw [gradContribOf, List.length_flatten, dimTotal, List.map_map]
  congr 1
  refine List.map_congr_left ?_
  intro vd _
  simp [Function.comp]

theorem qsum_map_neg {α : Type} (l : List α) (f : α → ℚ) :
    qsum (l.map (fun x => -(f x))) = -(qsum (l.map f)) := by
  induction l with
  | nil => simp [qsum]
  | cons a l ih =>
    simp only [List.map_cons, qsum, List.sum_cons]
    rw [show (l.map (fun x => -(f x))).sum = qsum (l.map (fun x => -(f x))) from rfl,
      ih, qsum]
    ring

theorem elimKey_layout {dims : ℕ → ℕ} {k : ℕ} {comb : HFactor} {cl : CliqueA}
    (h : elimKey dims k comb = some cl) :
    ((varsWithDims cl.cond).map Prod.fst).Nodup ∧
    ∀ r co, (¬ ∃ vd ∈ varsWithDims cl.cond, co.1 = vd.1 ∧ co.2 < vd.2) →
      jacRow cl.cond r co = 0 := by
  simp only [elimKey] at h
  split at h
  · exact absurd h (by simp)
  · obtain rfl := Option.some.inj h
    constructor
    · rw [varsWithDims]
      show (List.map Prod.fst ((k, dims k) ::
        (finSort (comb.keys.erase k)).map (fun v => (v, dims v)))).Nodup
      rw [List.map_cons, List.map_map]
      have hid : (Prod.fst ∘ fun v => (v, dims v)) = id := rfl
      rw [hid, List.map_id]
      refine List.nodup_cons.mpr ⟨?_, finSort_nodup _⟩
      intro hmem
      exact Finset.not_mem_erase k comb.keys ((mem_finSort _ _).mp hmem)
    · intro r co hno
      rw [jacRow]
      split
      case isTrue hco =>
        show (if r < dims k ∧ co.2 < dims k then comb.Hm (k, r) (k, co.2) else 0) = 0
        rw [if_neg]
        rintro ⟨-, h2⟩
        exact hno ⟨(k, dims k), List.mem_cons_self _ _, hco, h2⟩
      case isFalse hco =>
        show (if r < dims k ∧ co.1 ∈ comb.keys.erase k ∧ co.2 < dims co.1
          then comb.Hm (k, r) co else 0) = 0
        rw [if_neg]
        rintro ⟨-, h2, h3⟩
        refine hno ⟨(co.1, dims co.1), ?_, rfl, h3⟩
        rw [varsWithDims]
        exact List.mem_cons_of_mem _
          (List.mem_map_of_mem _ ((mem_finSort _ _).mpr h2))

theorem run_from_elimKey (dims : ℕ → ℕ) :
    ∀ (L : List ℕ) (P : Multiset HFactor) cs R,
    elimRunP dims L P = some (cs, R) →
    ∀ kc ∈ cs, ∃ comb, elimKey dims kc.1 comb = some kc.2 := by
  intro L
  induction L with
  | nil =>
    intro P cs R h kc hkc
    rw [elimRunP_nil] at h
    obtain ⟨h1, -⟩ := Prod.mk.injEq .. ▸ Option.some.inj h
    exact absurd (h1 ▸ hkc) (List.not_mem_nil _)
  | cons k L ih =>
    intro P cs R h kc hkc
    obtain ⟨cl, cs2, hcl, hrun, rfl⟩ := elimRunP_cons_inv h
    rcases List.mem_cons.mp hkc with rfl | hkc2
    · exact ⟨_, hcl⟩
    · exact ih _ _ _ hrun kc hkc2

theorem good_clique_layout {s : IState} (hG : Good s) :
    ∀ kc ∈ s.cliques, ((varsWithDims kc.2.cond).map Prod.fst).Nodup ∧
    ∀ r co, (¬ ∃ vd ∈ varsWithDims kc.2.cond, co.1 = vd.1 ∧ co.2 < vd.2) →
      jacRow kc.2.cond r co = 0 := by
  obtain ⟨-, -, -, rest, hrun⟩ := hG
  intro kc hkc
  obtain ⟨comb, hck⟩ := run_from_elimKey _ _ _ _ _ hrun kc hkc
  exact elimKey_layout hck

theorem segLookup_flatten (F : ℕ × ℕ → ℚ) :
    ∀ (vds : List (ℕ × ℕ)) (co : ℕ × ℕ), ((vds.map Prod.fst).Nodup) →
    segLookup vds ((vds.map (fun vd => (List.range vd.2).map (fun i =>
        F (vd.1, i)))).flatten) co
      = if ∃ vd ∈ vds, co.1 = vd.1 ∧ co.2 < vd.2 then F co else 0 := by
  intro vds
  induction vds with
  | nil =>
    intro co _
    rw [segLookup, if_neg (by simp)]
  | cons vd rest ih =>
    intro co hnd
    obtain ⟨w, d⟩ := vd
    rw [List.map_cons, List.flatten_cons, segLookup]
    rw [List.map_cons] at hnd
    by_cases hw : co.1 = w
    · rw [if_pos hw]
      by_cases hlt : co.2 < d
      · rw [if_pos hlt, if_pos ⟨(w, d), List.mem_cons_self _ _, hw, hlt⟩]
        have hlen : co.2 < ((List.range d).map (fun i => F (w, i))).length := by
          simpa using hlt
        rw [List.getD_append _ _ _ _ hlen, List.getD_eq_getElem _ _ hlen,
          List.getElem_map, List.getElem_range, ← hw]
      · rw [if_neg hlt, if_neg]
        rintro ⟨vd2, hvd2, hco1, hco2⟩
        rcases List.mem_cons.mp hvd2 with rfl | hvd2
        · exact hlt hco2
        · have hmem : w ∈ rest.map Prod.fst := by
            rw [← hw, hco1]
            exact List.mem_map_of_mem Prod.fst hvd2
          exact (List.nodup_cons.mp hnd).1 hmem
    · rw [if_neg hw]
      have hl : ((List.range d).map (fun i => F (w, i))).length = d := by simp
      rw [show (((List.range d).map (fun i => F (w, i))) ++
          (rest.map (fun vd => (List.range vd.2).map (fun i =>
            F (vd.1, i)))).flatten).drop d
        = (rest.map (fun vd => (List.range vd.2).map (fun i =>
            F (vd.1, i)))).flatten from List.drop_left' hl]
      rw [ih co (List.nodup_cons.mp hnd).2]
      have hiff : (∃ vd ∈ rest, co.1 = vd.1 ∧ co.2 < vd.2)
          ↔ (∃ vd ∈ (w, d) :: rest, co.1 = vd.1 ∧ co.2 < vd.2) := by
        constructor
        · rintro ⟨vd2, h1, h2⟩
          exact ⟨vd2, List.mem_cons_of_mem _ h1, h2⟩
        · rintro ⟨vd2, h1, h2⟩
          rcases List.mem_cons.mp h1 with rfl | h1
          · exact absurd h2.1 hw
          · exact ⟨vd2, h1, h2⟩
      rw [if_congr hiff rfl rfl]

theorem cliqueGradAt_single (c : GCond)
    (hnd : ((varsWithDims c).map Prod.fst).Nodup)
    (hmask : ∀ r co, (¬ ∃ vd ∈ varsWithDims c, co.1 = vd.1 ∧ co.2 < vd.2) →
      jacRow c r co = 0) :
    segLookup (varsWithDims c) (gradContribOf c) = gradientAtZeroF [jacobianOf c] := by
  funext co
  have hseg := segLookup_flatten (fun co2 => -(qsum ((List.range c.dimF).map
    (fun r => jacRow c r co2 * c.dv r)))) (varsWithDims c) co hnd
  rw [show gradContribOf c = ((varsWithDims c).map (fun vd =>
      (List.range vd.2).map (fun i => (fun co2 => -(qsum ((List.range c.dimF).map
        (fun r => jacRow c r co2 * c.dv r)))) (vd.1, i)))).flatten from rfl]
  rw [hseg]
  have hrhs : gradientAtZeroF [jacobianOf c] co
      = -(qsum ((List.range c.dimF).map (fun r => jacRow c r co * c.dv r))) := by
    show qsum ([jacobianOf c].map (fun f => qsum ((List.range f.rows).map
      (fun r => -(f.Am r co * f.bv r))))) = _
    rw [List.map_cons, List.map_nil, qsum, List.sum_cons, List.sum_nil, add_zero]
    rw [show (jacobianOf c).rows = c.dimF from rfl]
    rw [qsum_map_neg (List.range c.dimF)
      (fun r => (jacobianOf c).Am r co * (jacobianOf c).bv r)]
    rfl
  rw [hrhs]
  split
  case isTrue h => rfl
  case isFalse h =>
    have hz : ∀ r ∈ List.range c.dimF, jacRow c r co * c.dv r = 0 := fun r _ => by
      rw [hmask r co h, zero_mul]
    rw [show qsum ((List.range c.dimF).map (fun r => jacRow c r co * c.dv r)) = 0 from by
      rw [qsum]
      exact List.sum_eq_zero (fun x hx => by
        obtain ⟨r, hr, rfl⟩ := List.mem_map.mp hx
        exact hz r hr)]
    simp

theorem finSort_sorted (s : Finset ℕ) : (finSort s).Sorted (· ≤ ·) := by
  cases s with
  | mk val nd =>
    induction val using Quotient.inductionOn with
    | h l => exact List.sorted_insertionSort _ l

theorem nodup_all_singleton {l : List ℕ} {a : ℕ} (hnd : l.Nodup) (hmem : a ∈ l)
    (hall : ∀ x ∈ l, x = a) : l = [a] := by
  cases l with
  | nil => exact absurd hmem (List.not_mem_nil a)
  | cons b t =>
    obtain rfl := hall b (List.mem_cons_self _ _)
    cases t with
    | nil => rfl
    | cons c t2 =>
      obtain rfl := hall c (List.mem_cons_of_mem _ (List.mem_cons_self _ _))
      exact absurd (List.mem_cons_self _ _) (List.nodup_cons.mp hnd).1

theorem sorted_nodup_eq_of_mem_iff {l1 l2 : List ℕ} (hs1 : l1.Sorted (· ≤ ·))
    (hs2 : l2.Sorted (· ≤ ·)) (hn1 : l1.Nodup) (hn2 : l2.Nodup)
    (hmem : ∀ x, x ∈ l1 ↔ x ∈ l2) : l1 = l2 :=
  List.eq_of_perm_of_sorted
    (List.perm_of_nodup_nodup_toFinset_eq hn1 hn2
      (Finset.ext (fun x => by rw [List.mem_toFinset, List.mem_toFinset]; exact hmem x)))
    hs1 hs2

theorem indexOf_append_left {l1 l2 : List ℕ} {a : ℕ} (h : a ∈ l1) :
    (l1 ++ l2).indexOf a = l1.indexOf a := by
  induction l1 with
  | nil => exact absurd h (List.not_mem_nil a)
  | cons b t ih =>
    by_cases hab : b = a
    · subst hab
      rw [List.cons_append, List.indexOf_cons_self, List.indexOf_cons_self]
    · rcases List.mem_cons.mp h with rfl | h2
      · exact absurd rfl (fun he => hab he.symm)
      · rw [List.cons_append, List.indexOf_cons_ne _ hab, List.indexOf_cons_ne _ hab,
          ih h2]

theorem bucketSort_last_two {g : ℕ → ℕ} {keys : List ℕ} (hknd : keys.Nodup)
    (hg3 : g 3 = 1) (hg4 : g 4 = 2) (hg0 : ∀ k, k ≠ 3 → k ≠ 4 → g k = 0)
    (h3k : 3 ∈ keys) (h4k : 4 ∈ keys) :
    ∃ mid, bucketSort g keys = mid ++ [3, 4] ∧ ∀ x ∈ mid, g x = 0 := by
  have hgall : ∀ k : ℕ, g k = 0 ∨ g k = 1 ∨ g k = 2 := by
    intro k
    by_cases hk3 : k = 3
    · subst hk3; exact Or.inr (Or.inl hg3)
    · by_cases hk4 : k = 4
      · subst hk4; exact Or.inr (Or.inr hg4)
      · exact Or.inl (hg0 k hk3 hk4)
  have h1G : 1 ∈ (keys.map g).toFinset :=
    List.mem_toFinset.mpr (by rw [← hg3]; exact List.mem_map_of_mem _ h3k)
  have h2G : 2 ∈ (keys.map g).toFinset :=
    List.mem_toFinset.mpr (by rw [← hg4]; exact List.mem_map_of_mem _ h4k)
  have hGsub : ∀ x ∈ (keys.map g).toFinset, x = 0 ∨ x = 1 ∨ x = 2 := by
    intro x hx
    obtain ⟨k, -, rfl⟩ := List.mem_map.mp (List.mem_toFinset.mp hx)
    exact hgall k
  have hb1 : keys.filter (fun k => g k == 1) = [3] := by
    refine nodup_all_singleton (hknd.filter _)
      (List.mem_filter.mpr ⟨h3k, by simp [hg3]⟩) ?_
    intro x hx
    have hgx : g x = 1 := by simpa using List.of_mem_filter hx
    by_contra hx3
    by_cases hx4 : x = 4
    · subst hx4; rw [hg4] at hgx; exact absurd hgx (by decide)
    · rw [hg0 x hx3 hx4] at hgx; exact absurd hgx (by decide)
  have hb2 : keys.filter (fun k => g k == 2) = [4] := by
    refine nodup_all_singleton (hknd.filter _)
      (List.mem_filter.mpr ⟨h4k, by simp [hg4]⟩) ?_
    intro x hx
    have hgx : g x = 2 := by simpa using List.of_mem_filter hx
    by_contra hx4
    by_cases hx3 : x = 3
    · subst hx3; rw [hg3] at hgx; exact absurd hgx (by decide)
    · rw [hg0 x hx3 hx4] at hgx; exact absurd hgx (by decide)
  by_cases h0G : 0 ∈ (keys.map g).toFinset
  · have hfs : finSort (keys.map g).toFinset = [0, 1, 2] := by
      refine sorted_nodup_eq_of_mem_iff (finSort_sorted _) (by decide)
        (finSort_nodup _) (by decide) ?_
      intro x
      rw [mem_finSort]
      constructor
      · intro hx
        rcases hGsub x hx with rfl | rfl | rfl <;> simp
      · intro hx
        rcases (by simpa using hx : x = 0 ∨ x = 1 ∨ x = 2) with rfl | rfl | rfl
        · exact h0G
        · exact h1G
        · exact h2G
    refine ⟨keys.filter (fun k => g k == 0), ?_, ?_⟩
    · rw [bucketSort, hfs, List.flatMap_cons, List.flatMap_cons, List.flatMap_cons,
        List.flatMap_nil, List.append_nil, hb1, hb2]
      rfl
    · intro x hx
      simpa using List.of_mem_filter hx
  · have hfs : finSort (keys.map g).toFinset = [1, 2] := by
      refine sorted_nodup_eq_of_mem_iff (finSort_sorted _) (by decide)
        (finSort_nodup _) (by decide) ?_
      intro x
      rw [mem_finSort]
      constructor
      · intro hx
        rcases hGsub x hx with rfl | rfl | rfl
        · exact absurd hx h0G
        · simp
        · simp
      · intro hx
        rcases (by simpa using hx : x = 1 ∨ x = 2) with rfl | rfl
        · exact h1G
        · exact h2G
    refine ⟨[], ?_, ?_⟩
    · rw [bucketSort, hfs, List.flatMap_cons, List.flatMap_cons,
        List.flatMap_nil, List.append_nil, hb1, hb2]
      rfl
    · intro x hx
      exact absurd hx (List.not_mem_nil x)

theorem stAB_reach : applyUpdates initISAM2 [updA, updB] = some stAB := by
  with_unfolding_all rfl

theorem stABC_reach : applyUpdates initISAM2 [updA, updB, updC] = some stABC := by
  with_unfolding_all rfl

theorem prC_step : isamUpdate stAB updC = some (prC.1, prC.2) := by
  with_unfolding_all rfl

theorem prD_step : isamUpdate stAB updD = some (prD.1, prD.2) := by
  with_unfolding_all rfl

theorem prE_step : isamUpdate prD.1 updE = some (prE.1, prE.2) := by
  with_unfolding_all rfl

theorem prD_indices : (2 : ℕ) ∈ prD.2.newFactorsIndices := by
  with_unfolding_all decide

/-- C1: for any well-formed sequence of incremental update calls starting
from the empty smoother (each adding factors and initial values for new
variables, possibly with constrained groups and removals), the delta-applied
estimate of calculateEstimate equals the estimate obtained by linearizing the
entire accumulated factor graph from scratch at the accumulated initial
values under the same ordering, eliminating it once sequentially, and
retracting the resulting delta.  The model computes exactly over ℚ, so the
1e-4 numerical tolerance of the specification is subsumed by equality. -/
theorem incremental_estimate_matches_batch {us : List UInput} {s : IState}
    (hWF : WFInputs us) (h : applyUpdates initISAM2 us = some s) :
    calculateEstimate s = batchEstimate s :=
  good_estimate (good_reach us initISAM2 s good_init hWF h)

theorem incremental_estimate_matches_batch_witness :
    WFInputs [updA, updB, updC] ∧
    applyUpdates initISAM2 [updA, updB, updC] = some stABC ∧
    calculateEstimate stABC = batchEstimate stABC :=
  ⟨wfs_scenarioABC, stABC_reach,
    incremental_estimate_matches_batch wfs_scenarioABC stABC_reach⟩

/-- C10: for any tree state, the specialized gradient-at-zero of the tree's
conditionals viewed as a Jacobian factor graph equals the general gradient of
the same factor graph evaluated at the zero vector: the optimized zero-point
path is a special case of the general gradient, not an independent
approximation. -/
theorem gradientAtZero_eq_gradient_at_zero (s : IState) :
    gradientAtZeroF (isamJacobians s) = gradientF (isamJacobians s) (fun _ => 0) :=
  (gradientF_at_zero (isamJacobians s)).symm

/-- C7: every successful update call appends its new factors at the end of
the live factor graph (after masking the removed slots in place) and returns
their assigned indices: the index returned for the k-th of the n new factors
equals the size of the factor graph minus n plus k. -/
theorem update_returns_appended_indices {s : IState} {u : UInput} {s2 : IState}
    {r : URes} (h : isamUpdate s u = some (s2, r)) :
    r.newFactorsIndices = List.range' s.factors.length u.newFactors.length ∧
    getFactorsUnsafe s2
      = maskFrom u.removeIndices 0 (getFactorsUnsafe s) ++ u.newFactors.map some ∧
    (getFactorsUnsafe s2).length = s.factors.length + u.newFactors.length ∧
    ∀ k, k < u.newFactors.length →
      r.newFactorsIndices.getD k 0
        = (getFactorsUnsafe s2).length - u.newFactors.length + k := by
  obtain ⟨-, cs, rest, -, hs2, hr⟩ := isamUpdate_inv h
  have hlen : (getFactorsUnsafe s2).length
      = s.factors.length + u.newFactors.length := by
    rw [hs2]
    show (updFactors s u).length = _
    rw [updFactors, List.length_append, maskFrom_length, List.length_map]
  refine ⟨by rw [hr], by rw [hs2]; rfl, hlen, ?_⟩
  intro k hk
  rw [hr]
  show (List.range' s.factors.length u.newFactors.length).getD k 0 = _
  rw [range'_getD _ _ _ hk, hlen]
  omega

theorem update_returns_appended_indices_witness :
    isamUpdate stAB updC = some (prC.1, prC.2) ∧
    (prC.2.newFactorsIndices
        = List.range' stAB.factors.length updC.newFactors.length ∧
      getFactorsUnsafe prC.1
        = maskFrom updC.removeIndices 0 (getFactorsUnsafe stAB)
            ++ updC.newFactors.map some ∧
      (getFactorsUnsafe prC.1).length
        = stAB.factors.length + updC.newFactors.length ∧
      ∀ k, k < updC.newFactors.length →
        prC.2.newFactorsIndices.getD k 0
          = (getFactorsUnsafe prC.1).length - updC.newFactors.length + k) :=
  ⟨prC_step, update_returns_appended_indices prC_step⟩

/-- C3: cloning is a fully independent deep copy: after cloning and then
mutating the original by an update that adds at least one factor, the clone
still holds exactly the factor slots accumulated by the original update
sequence (a freshly built structure containing only the pre-mutation
factors), the clone's estimate still satisfies batch consistency over exactly
those factors, the mutated state's factor graph is the clone's masked and
extended (a new value, not a mutation of the clone's), and the two factor
graphs differ. -/
theorem clone_unaffected_by_mutation {us : List UInput} {u : UInput}
    {s s2 : IState} {r : URes}
    (hWF : WFInputs us) (h : applyUpdates initISAM2 us = some s)
    (hu : isamUpdate s u = some (s2, r)) (hne : u.newFactors ≠ []) :
    getFactorsUnsafe (cloneISAM2 s) = accumFactors us ∧
    calculateEstimate (cloneISAM2 s) = batchEstimate (cloneISAM2 s) ∧
    getFactorsUnsafe s2
      = maskFrom u.removeIndices 0 (getFactorsUnsafe (cloneISAM2 s))
          ++ u.newFactors.map some ∧
    getFactorsUnsafe (cloneISAM2 s) ≠ getFactorsUnsafe s2 := by
  obtain ⟨-, cs, rest, -, hs2, -⟩ := isamUpdate_inv hu
  refine ⟨factors_accum h,
    good_estimate (good_reach us initISAM2 s good_init hWF h), by rw [hs2]; rfl, ?_⟩
  intro heq
  have hlen2 : (getFactorsUnsafe s2).length
      = s.factors.length + u.newFactors.length := by
    rw [hs2]
    show (updFactors s u).length = _
    rw [updFactors, List.length_append, maskFrom_length, List.length_map]
  have h0 : u.newFactors.length ≠ 0 := fun h0 => hne (List.length_eq_zero.mp h0)
  have hl := congrArg List.length heq
  rw [hlen2] at hl
  have hl2 : s.factors.length = s.factors.length + u.newFactors.length := hl
  omega

theorem clone_unaffected_by_mutation_witness :
    WFInputs [updA, updB] ∧
    applyUpdates initISAM2 [updA, updB] = some stAB ∧
    isamUpdate stAB updD = some (prD.1, prD.2) ∧ updD.newFactors ≠ [] ∧
    (getFactorsUnsafe (cloneISAM2 stAB) = accumFactors [updA, updB] ∧
      calculateEstimate (cloneISAM2 stAB) = batchEstimate (cloneISAM2 stAB) ∧
      getFactorsUnsafe prD.1
        = maskFrom updD.removeIndices 0 (getFactorsUnsafe (cloneISAM2 stAB))
            ++ updD.newFactors.map some ∧
      getFactorsUnsafe (cloneISAM2 stAB) ≠ getFactorsUnsafe prD.1) :=
  ⟨wfs_scenarioAB, stAB_reach, prD_step, by simp [updD],
    clone_unaffected_by_mutation wfs_scenarioAB stAB_reach prD_step
      (by simp [updD])⟩

/-- C6: calling update with a factor index previously returned in
newFactorsIndices listed for removal, with no new factors and no new values,
removes exactly that factor: the surviving factor slots are the previous ones
with exactly that slot emptied, the linearization point is unchanged, and the
subsequent estimate satisfies batch consistency — it equals the batch solve
over the accumulated factor graph with that factor excluded from the
start. -/
theorem remove_factor_matches_batch_without {us : List UInput} {uprev u : UInput}
    {s s1 s2 : IState} {r1 r2 : URes} {i : ℕ}
    (hWF : WFInputs us) (hWFp : WFInput uprev)
    (h : applyUpdates initISAM2 us = some s)
    (hp : isamUpdate s uprev = some (s1, r1))
    (hi : i ∈ r1.newFactorsIndices)
    (hu : isamUpdate s1 u = some (s2, r2))
    (hnf : u.newFactors = []) (hnv : u.newValues = []) (hrem : u.removeIndices = [i]) :
    getFactorsUnsafe s2 = (getFactorsUnsafe s1).set i none ∧
    liveFactors s2 = ((getFactorsUnsafe s1).set i none).filterMap id ∧
    s2.theta = s1.theta ∧
    calculateEstimate s2 = batchEstimate s2 := by
  have hG : Good s := good_reach us initISAM2 s good_init hWF h
  have hG1 : Good s1 := good_step hG hWFp hp
  have hWFu : WFInput u := by
    rw [WFInput, hnf]
    intro f hf
    exact absurd hf (List.not_mem_nil f)
  have hG2 : Good s2 := good_step hG1 hWFu hu
  obtain ⟨-, cs, rest, -, hs2, -⟩ := isamUpdate_inv hu
  have hfac : getFactorsUnsafe s2 = (getFactorsUnsafe s1).set i none := by
    rw [hs2]
    show updFactors s1 u = _
    rw [updFactors, hnf, hrem, List.map_nil, List.append_nil, maskFrom_single,
      if_neg (by omega), Nat.sub_zero]
    rfl
  have htheta : s2.theta = s1.theta := by
    rw [hs2]
    show updTheta s1 u = s1.theta
    funext k
    rw [updTheta, if_neg (by simp [updNewKeys, hnv])]
  exact ⟨hfac,
    by rw [liveFactors, show s2.factors = (getFactorsUnsafe s1).set i none from hfac],
    htheta, good_estimate hG2⟩

theorem remove_factor_matches_batch_without_witness :
    WFInputs [updA, updB] ∧ WFInput updD ∧
    applyUpdates initISAM2 [updA, updB] = some stAB ∧
    isamUpdate stAB updD = some (prD.1, prD.2) ∧
    2 ∈ prD.2.newFactorsIndices ∧
    isamUpdate prD.1 updE = some (prE.1, prE.2) ∧
    updE.newFactors = [] ∧ updE.newValues = [] ∧ updE.removeIndices = [2] ∧
    (getFactorsUnsafe prE.1 = (getFactorsUnsafe prD.1).set 2 none ∧
      liveFactors prE.1 = ((getFactorsUnsafe prD.1).set 2 none).filterMap id ∧
      prE.1.theta = prD.1.theta ∧
      calculateEstimate prE.1 = batchEstimate prE.1) :=
  ⟨wfs_scenarioAB, wf_updD, stAB_reach, prD_step, prD_indices, prE_step,
    rfl, rfl, rfl,
    remove_factor_matches_batch_without wfs_scenarioAB wf_updD stAB_reach
      prD_step prD_indices prE_step rfl rfl rfl⟩

theorem stABC_cliques_ne : stABC.cliques ≠ [] := by
  have hlen : stABC.cliques.length = 5 := by with_unfolding_all rfl
  intro h
  rw [h] at hlen
  exact absurd hlen (by simp)

/-- C2: after any well-formed sequence of updates, the whole-tree cached
gradient at the zero-delta point — concatenated from each clique's cached
gradientContribution — equals the gradient computed directly from the tree's
conditional Jacobians at the zero vector; and per clique, the scattered
segment of the cached gradientContribution equals the gradient-at-zero of the
factor graph containing only that clique's conditional, the cached vector
being exactly the one recomputed from the conditional. -/
theorem gradient_cached_consistent {us : List UInput} {s : IState}
    (hWF : WFInputs us) (h : applyUpdates initISAM2 us = some s) :
    isamGradAtZero s = gradientAtZeroF (isamJacobians s) ∧
    ∀ kc ∈ s.cliques,
      cliqueGradAt kc.2 = gradientAtZeroF [jacobianOf kc.2.cond] ∧
      kc.2.gradContribution = gradContribOf kc.2.cond := by
  have hG := good_reach us initISAM2 s good_init hWF h
  obtain ⟨-, hshape, -⟩ := good_struct hG
  have hper : ∀ kc ∈ s.cliques,
      cliqueGradAt kc.2 = gradientAtZeroF [jacobianOf kc.2.cond] := by
    intro kc hkc
    obtain ⟨hnd, hmask⟩ := good_clique_layout hG kc hkc
    have hgc : kc.2.gradContribution = gradContribOf kc.2.cond :=
      ((hshape kc hkc).1).2.2.2.1
    rw [cliqueGradAt, hgc]
    exact cliqueGradAt_single _ hnd hmask
  refine ⟨?_, fun kc hkc => ⟨hper kc hkc, ((hshape kc hkc).1).2.2.2.1⟩⟩
  funext co
  show qsum (s.cliques.map (fun kc => cliqueGradAt kc.2 co))
    = gradientAtZeroF (isamJacobians s) co
  have hmapeq : s.cliques.map (fun kc => cliqueGradAt kc.2 co)
      = s.cliques.map (fun kc => gradientAtZeroF [jacobianOf kc.2.cond] co) :=
    List.map_congr_left (fun kc hkc => by rw [hper kc hkc])
  rw [hmapeq]
  rw [show gradientAtZeroF (isamJacobians s) co
      = qsum ((isamJacobians s).map (fun f => qsum ((List.range f.rows).map
        (fun r => -(f.Am r co * f.bv r))))) from rfl]
  rw [isamJacobians, List.map_map]
  refine congrArg qsum (List.map_congr_left ?_)
  intro kc _
  show gradientAtZeroF [jacobianOf kc.2.cond] co = _
  rw [show gradientAtZeroF [jacobianOf kc.2.cond] co
      = qsum ([jacobianOf kc.2.cond].map (fun f => qsum ((List.range f.rows).map
        (fun r => -(f.Am r co * f.bv r))))) from rfl]
  rw [List.map_cons, List.map_nil, qsum, List.sum_cons, List.sum_nil, add_zero]
  rfl

theorem gradient_cached_consistent_witness :
    WFInputs [updA, updB, updC] ∧
    applyUpdates initISAM2 [updA, updB, updC] = some stABC ∧
    isamGradAtZero stABC = gradientAtZeroF (isamJacobians stABC) ∧
    cliqueGradAt (stABC.cliques.getD 0 cliqueDefault).2
      = gradientAtZeroF [jacobianOf (stABC.cliques.getD 0 cliqueDefault).2.cond] ∧
    (stABC.cliques.getD 0 cliqueDefault).2.gradContribution
      = gradContribOf (stABC.cliques.getD 0 cliqueDefault).2.cond :=
  ⟨wfs_scenarioABC, stABC_reach,
    (gradient_cached_consistent wfs_scenarioABC stABC_reach).1,
    ((gradient_cached_consistent wfs_scenarioABC stABC_reach).2 _
      (getD_zero_mem _ _ stABC_cliques_ne)).1,
    ((gradient_cached_consistent wfs_scenarioABC stABC_reach).2 _
      (getD_zero_mem _ _ stABC_cliques_ne)).2⟩

/-- C9: after any well-formed sequence of updates, every clique's cached
gradientContribution vector has exactly as many rows as the sum of the local
dimensions of all variables — frontal and separator — appearing in that
clique's conditional. -/
theorem gradContribution_length {us : List UInput} {s : IState}
    (hWF : WFInputs us) (h : applyUpdates initISAM2 us = some s) :
    ∀ kc ∈ s.cliques,
      kc.2.gradContribution.length = dimTotal (varsWithDims kc.2.cond) := by
  intro kc hkc
  have hG := good_reach us initISAM2 s good_init hWF h
  obtain ⟨-, hshape, -⟩ := good_struct hG
  rw [((hshape kc hkc).1).2.2.2.1]
  exact gradContribOf_length _

theorem gradContribution_length_witness :
    WFInputs [updA, updB, updC] ∧
    applyUpdates initISAM2 [updA, updB, updC] = some stABC ∧
    (stABC.cliques.getD 0 cliqueDefault).2.gradContribution.length
      = dimTotal (varsWithDims (stABC.cliques.getD 0 cliqueDefault).2.cond) :=
  ⟨wfs_scenarioABC, stABC_reach,
    gradContribution_length wfs_scenarioABC stABC_reach _
      (getD_zero_mem _ _ stABC_cliques_ne)⟩

/-- C5: when update is called with ordering-constraint groups placing key 3
in group 1 and key 4 in group 2 (all other keys unconstrained in group 0),
and both keys take part in the re-elimination, the resulting ordering places
3 and then 4 at its very end: their positions are length minus 2 and length
minus 1, every other variable's index is strictly smaller, and the
batch-consistency property of the estimate still holds under the constrained
ordering. -/
theorem constrained_ordering_last {us : List UInput} {u : UInput}
    {s s2 : IState} {r : URes}
    (hWF : WFInputs us) (hWFu : WFInput u)
    (h : applyUpdates initISAM2 us = some s)
    (hu : isamUpdate s u = some (s2, r))
    (hg3 : u.groups 3 = 1) (hg4 : u.groups 4 = 2)
    (hg0 : ∀ k, k ≠ 3 → k ≠ 4 → u.groups k = 0)
    (h3 : 3 ∈ affectedSetOf s u) (h4 : 4 ∈ affectedSetOf s u)
    (h3m : 3 ∈ s.order ∨ 3 ∈ updNewKeys u)
    (h4m : 4 ∈ s.order ∨ 4 ∈ updNewKeys u) :
    (∃ pre, s2.order = pre ++ [3, 4] ∧ 3 ∉ pre ∧ 4 ∉ pre) ∧
    s2.order.indexOf 3 = s2.order.length - 2 ∧
    s2.order.indexOf 4 = s2.order.length - 1 ∧
    (∀ k ∈ s2.order, k ≠ 3 → k ≠ 4 → s2.order.indexOf k < s2.order.indexOf 3) ∧
    calculateEstimate s2 = batchEstimate s2 := by
  have hG := good_reach us initISAM2 s good_init hWF h
  obtain ⟨hval, cs, rest, hrun, hs2, -⟩ := isamUpdate_inv hu
  have horder : s2.order = updKept s u ++ updAffOrder s u := by rw [hs2]
  have hnkd : (updNewKeys u).Nodup := hval.2.2.1
  have hdisj : ∀ k ∈ updNewKeys u, k ∉ s.order := hval.2.2.2.1
  have hknd : (s.order.filter (fun k => decide (k ∈ affectedSetOf s u))
      ++ updNewKeys u).Nodup :=
    List.Nodup.append (hG.1.filter _) hnkd
      (fun k hk1 hk2 => hdisj k hk2 (List.mem_of_mem_filter hk1))
  have h3k : 3 ∈ s.order.filter (fun k => decide (k ∈ affectedSetOf s u))
      ++ updNewKeys u := by
    rcases h3m with hm | hm
    · exact List.mem_append.mpr (Or.inl (List.mem_filter.mpr ⟨hm, by simpa using h3⟩))
    · exact List.mem_append.mpr (Or.inr hm)
  have h4k : 4 ∈ s.order.filter (fun k => decide (k ∈ affectedSetOf s u))
      ++ updNewKeys u := by
    rcases h4m with hm | hm
    · exact List.mem_append.mpr (Or.inl (List.mem_filter.mpr ⟨hm, by simpa using h4⟩))
    · exact List.mem_append.mpr (Or.inr hm)
  obtain ⟨mid, hmid, hmid0⟩ := bucketSort_last_two hknd hg3 hg4 hg0 h3k h4k
  have haff : updAffOrder s u = mid ++ [3, 4] := by
    rw [updAffOrder]
    exact hmid
  have horder2 : s2.order = (updKept s u ++ mid) ++ [3, 4] := by
    rw [horder, haff, List.append_assoc]
  have h3pre : 3 ∉ updKept s u ++ mid := by
    intro hmem
    rcases List.mem_append.mp hmem with hm | hm
    · exact (by simpa using List.of_mem_filter hm : 3 ∉ affectedSetOf s u) h3
    · exact absurd hg3 (by rw [hmid0 3 hm]; decide)
  have h4pre : 4 ∉ updKept s u ++ mid := by
    intro hmem
    rcases List.mem_append.mp hmem with hm | hm
    · exact (by simpa using List.of_mem_filter hm : 4 ∉ affectedSetOf s u) h4
    · exact absurd hg4 (by rw [hmid0 4 hm]; decide)
  have hlen : s2.order.length = (updKept s u ++ mid).length + 2 := by
    rw [horder2]
    simp only [List.length_append, List.length_cons, List.length_nil]
  have hidx3 : s2.order.indexOf 3 = (updKept s u ++ mid).length := by
    rw [horder2, List.indexOf_append_of_not_mem h3pre, List.indexOf_cons_self]
    omega
  have hidx4 : s2.order.indexOf 4 = (updKept s u ++ mid).length + 1 := by
    rw [horder2, List.indexOf_append_of_not_mem h4pre,
      List.indexOf_cons_ne _ (by decide : (3 : ℕ) ≠ 4), List.indexOf_cons_self]
  refine ⟨⟨updKept s u ++ mid, horder2, h3pre, h4pre⟩, by omega, by omega, ?_,
    good_estimate (good_step hG hWFu hu)⟩
  intro k hk hk3 hk4
  have hkpre : k ∈ updKept s u ++ mid := by
    rw [horder2] at hk
    rcases List.mem_append.mp hk with hm | hm
    · exact hm
    · rcases (by simpa using hm : k = 3 ∨ k = 4) with rfl | rfl
      · exact absurd rfl hk3
      · exact absurd rfl hk4
  rw [hidx3, horder2, indexOf_append_left hkpre]
  exact List.indexOf_lt_length.mpr hkpre

theorem constrained_ordering_last_witness :
    WFInputs [updA, updB] ∧ WFInput updC ∧
    applyUpdates initISAM2 [updA, updB] = some stAB ∧
    isamUpdate stAB updC = some (prC.1, prC.2) ∧
    updC.groups 3 = 1 ∧ updC.groups 4 = 2 ∧
    (∀ k, k ≠ 3 → k ≠ 4 → updC.groups k = 0) ∧
    3 ∈ affectedSetOf stAB updC ∧ 4 ∈ affectedSetOf stAB updC ∧
    (3 ∈ stAB.order ∨ 3 ∈ updNewKeys updC) ∧
    (4 ∈ stAB.order ∨ 4 ∈ updNewKeys updC) ∧
    prC.1.order.indexOf 3 = prC.1.order.length - 2 ∧
    prC.1.order.indexOf 4 = prC.1.order.length - 1 ∧
    calculateEstimate prC.1 = batchEstimate prC.1 := by
  have hg0 : ∀ k, k ≠ 3 → k ≠ 4 → updC.groups k = 0 := by
    intro k hk3 hk4
    simp [updC, hk3, hk4]
  have h3 : 3 ∈ affectedSetOf stAB updC := by with_unfolding_all decide
  have h4 : 4 ∈ affectedSetOf stAB updC := by with_unfolding_all decide
  have h3m : 3 ∈ stAB.order ∨ 3 ∈ updNewKeys updC := Or.inr (by decide)
  have h4m : 4 ∈ stAB.order ∨ 4 ∈ updNewKeys updC := Or.inr (by decide)
  have hmain := constrained_ordering_last wfs_scenarioAB wf_updC stAB_reach
    prC_step rfl rfl hg0 h3 h4 h3m h4m
  exact ⟨wfs_scenarioAB, wf_updC, stAB_reach, prC_step, rfl, rfl, hg0, h3, h4,
    h3m, h4m, hmain.2.1, hmain.2.2.1, hmain.2.2.2.2⟩
